import Mathlib

/-
Verification of the r-tree removal algorithms (`remove`, `remove_all`,
`remove_recursive` and the `DrainIterator`) from
`src/rstar/src/algorithm/removal.rs`.

The tree representation is shallowly embedded: an r-tree node is either a
leaf holding one element or a parent holding a cached envelope and a list
of children.  The envelope arithmetic and the selection predicates are
external collaborators in the source; they are modelled as explicit
parameters (`EnvCalc`, `SelectionFunction`).  The recursive removal and
the drain iterator are partial in the source (the recursion is unbounded),
so they are embedded with an explicit fuel argument; `Res.fuel` means the
computation did not finish within the given fuel and `Res.bug` marks the
`unreachable!()` arms of the source.
-/

namespace RStar

/-- Selection predicate: the two decision points of the source's
`SelectionFunction` trait. -/
structure SelectionFunction (α E : Type) where
  should_unpack_parent : E → Bool
  should_unpack_leaf : α → Bool

/-- The envelope collaborators used by the removal code: the empty
envelope, the binary merge (union), and the envelope of one element. -/
structure EnvCalc (α E : Type) where
  emptyE : E
  merge : E → E → E
  leafEnv : α → E

/-- A tree node: either a leaf holding one element or a parent holding a
cached envelope and a list of children (source `RTreeNode`). -/
inductive RTreeNode (α E : Type) where
  | Leaf : α → RTreeNode α E
  | Parent : E → List (RTreeNode α E) → RTreeNode α E

/-- A parent node is an envelope together with a children list
(source `ParentNode`): first component the cached envelope, second the
children. -/
abbrev ParentNode (α E : Type) := E × List (RTreeNode α E)

/-- The index handle (source `RTree`): a root parent node plus the cached
element count. -/
structure RTreeI (α E : Type) where
  root : ParentNode α E
  size : Nat

/-- Envelope of one node: the element envelope for leaves, the cached
envelope for parents. -/
def envOf {α E : Type} (ec : EnvCalc α E) : RTreeNode α E → E
  | .Leaf a => ec.leafEnv a
  | .Parent e _ => e

/-- Left fold of `merge` over a list of envelopes starting from the empty
envelope. -/
def foldE {α E : Type} (ec : EnvCalc α E) (es : List E) : E :=
  es.foldl ec.merge ec.emptyE

/-- Source `envelope_for_children`: union of the children's envelopes,
starting from the empty envelope. -/
def envelope_for_children {α E : Type} (ec : EnvCalc α E)
    (cs : List (RTreeNode α E)) : E :=
  foldE ec (cs.map (envOf ec))

/-- Result of a fuelled computation: a value, fuel exhaustion, or one of
the source's `unreachable!()` arms. -/
inductive Res (β : Type) where
  | ok : β → Res β
  | fuel : Res β
  | bug : Res β
deriving DecidableEq

section Algorithms

variable {α E : Type} (sel : SelectionFunction α E) (ec : EnvCalc α E)

mutual

/-- Source `remove_recursive`: fuelled embedding.  The boolean `first` is
`remove_only_first`.  On the envelope test failing, returns the node
unchanged with no removals; otherwise runs the child-scanning loop and
recomputes the envelope iff the result is non-empty. -/
def removeRec (first : Bool) :
    Nat → ParentNode α E → Res (List α × ParentNode α E)
  | 0, _ => .fuel
  | f + 1, p =>
    if sel.should_unpack_parent p.1 then
      match removeLoop first f p.2 0 [] with
      | .fuel => .fuel
      | .bug => .bug
      | .ok (res, cs) =>
        if res.isEmpty then .ok (res, (p.1, cs))
        else .ok (res, (envelope_for_children ec cs, cs))
    else .ok ([], p)

/-- The child-scanning `while i < node.children.len()` loop of
`remove_recursive`, with the accumulated `result` passed along.  Each
loop iteration and each recursive descent consumes one unit of fuel. -/
def removeLoop (first : Bool) :
    Nat → List (RTreeNode α E) → Nat → List α →
      Res (List α × List (RTreeNode α E))
  | 0, _, _, _ => .fuel
  | f + 1, cs, i, res =>
    if h : i < cs.length then
      match cs.get ⟨i, h⟩ with
      | .Parent e ccs =>
        match removeRec first f (e, ccs) with
        | .fuel => .fuel
        | .bug => .bug
        | .ok (res2, p2) =>
          let cs1 := cs.set i (.Parent p2.1 p2.2)
          let res1 := res ++ res2
          if res1.isEmpty then removeLoop first f cs1 (i + 1) res1
          else
            let cs2 := if p2.2.isEmpty then cs1.eraseIdx i else cs1
            if first then .ok (res1, cs2)
            else removeLoop first f cs2 i res1
      | .Leaf a =>
        if sel.should_unpack_leaf a then
          match cs.get ⟨i, h⟩ with
          | .Leaf t =>
            if first then .ok (res ++ [t], cs.eraseIdx i)
            else removeLoop first f (cs.eraseIdx i) i (res ++ [t])
          | .Parent _ _ => .bug
        else removeLoop first f cs (i + 1) res
    else .ok (res, cs)

end

/-- Source `remove`: `remove_recursive` in first-only mode followed by
`Vec::pop` on the result. -/
def removeOp (f : Nat) (p : ParentNode α E) :
    Res (Option α × ParentNode α E) :=
  match removeRec sel ec true f p with
  | .ok (r, p2) => .ok (r.getLast?, p2)
  | .fuel => .fuel
  | .bug => .bug

/-- Source `remove_all`: `remove_recursive` in full mode. -/
def removeAllOp (f : Nat) (p : ParentNode α E) :
    Res (List α × ParentNode α E) :=
  removeRec sel ec false f p

end Algorithms

/-- A drain-iterator stack frame: the detached node, the scan index, and
the count of elements removed from within this node's subtree so far. -/
abbrev Frame (α E : Type) := ParentNode α E × Nat × Nat

/-- The drain iterator state: the frame stack (head is the top of the
stack), the index handle being written back into, and the remembered
original size. -/
structure DrainState (α E : Type) where
  node_stack : List (Frame α E)
  rtree : RTreeI α E
  original_size : Nat

section Drain

variable {α E : Type} (sel : SelectionFunction α E) (ec : EnvCalc α E)

/-- Source `Vec::swap_remove`: replace position `i` with the last element
and drop the last element. -/
def swapRemove {γ : Type} (cs : List γ) (i : Nat) : List γ :=
  match cs.getLast? with
  | none => cs
  | some b => (cs.set i b).dropLast

/-- Source `Vec::swap` of two positions (identity when out of bounds; the
source only swaps in-bounds positions). -/
def listSwap {γ : Type} (cs : List γ) (i j : Nat) : List γ :=
  match cs.get? i, cs.get? j with
  | some a, some b => (cs.set i b).set j a
  | _, _ => cs

/-- Source `DrainIterator::new`: swap the root and size out of the index
(leaving a fresh empty tree) and start with a single root frame. -/
def drainNew (t : RTreeI α E) : DrainState α E :=
  ⟨[(t.root, 0, 0)], ⟨(ec.emptyE, []), 0⟩, t.size⟩

/-- Source `DrainIterator::pop_node`: pop the given top frame,
recomputing its envelope if it removed anything; at the root return the
node and its removed-count, otherwise propagate the removed-count to the
parent frame, prune the node if empty, else push it back into the parent
(and, when `increment` is set, swap it into the scan position and advance
the parent's scan index). -/
def popNode (increment : Bool) (fr : Frame α E) (rest : List (Frame α E)) :
    Option (ParentNode α E × Nat) × List (Frame α E) :=
  let node0 := fr.1
  let rc := fr.2.2
  let node := if 0 < rc then (envelope_for_children ec node0.2, node0.2) else node0
  match rest with
  | [] => (some (node, rc), [])
  | (pn, pidx, prc) :: rest2 =>
    let prc2 := prc + rc
    if node.2.isEmpty then (none, (pn, pidx, prc2) :: rest2)
    else
      let pcs := pn.2 ++ [RTreeNode.Parent node.1 node.2]
      if increment then
        let pcs2 := listSwap pcs pidx (pcs.length - 1)
        (none, ((pn.1, pcs2), pidx + 1, prc2) :: rest2)
      else (none, ((pn.1, pcs), pidx, prc2) :: rest2)

/-- Result of scanning the top frame's children from the scan index:
yield a matching leaf, descend into a parent child, exhaust the children,
or hit an `unreachable!()` arm. -/
inductive ScanRes (α E : Type) where
  | yieldLeaf : α → List (RTreeNode α E) → Nat → ScanRes α E
  | descend : ParentNode α E → List (RTreeNode α E) → Nat → ScanRes α E
  | exhausted : Nat → ScanRes α E
  | bugScan : ScanRes α E

/-- Structural worker for the scan loop: the first argument counts the
remaining positions (`cs.length - idx`), so the recursion is structural
and the function evaluates by reduction. -/
def drainScanGo (cs : List (RTreeNode α E)) : Nat → Nat → ScanRes α E
  | 0, idx => .exhausted idx
  | n + 1, idx =>
    if h : idx < cs.length then
      match cs.get ⟨idx, h⟩ with
      | .Parent _ _ =>
        match cs.get ⟨idx, h⟩ with
        | .Leaf _ => .bugScan
        | .Parent e2 ccs2 => .descend (e2, ccs2) (swapRemove cs idx) idx
      | .Leaf a =>
        if sel.should_unpack_leaf a then
          match cs.get ⟨idx, h⟩ with
          | .Leaf b => .yieldLeaf b (swapRemove cs idx) idx
          | .Parent _ _ => .bugScan
        else drainScanGo cs n (idx + 1)
    else .exhausted idx

/-- The `while *idx < node.children.len()` scan loop inside
`DrainIterator::next`: skip non-matching leaves, detach (swap-remove) the
first parent child or matching leaf found. -/
def drainScan (cs : List (RTreeNode α E)) (idx : Nat) : ScanRes α E :=
  drainScanGo sel cs (cs.length - idx) idx

/-- Source `DrainIterator::next`: fuelled embedding of the (tail-)
recursive pull step. -/
def drainNext : Nat → DrainState α E → Res (Option α × DrainState α E)
  | 0, _ => .fuel
  | f + 1, st =>
    match st.node_stack with
    | [] => .ok (none, st)
    | (node, idx, rc) :: rest =>
      match (if 0 < idx || sel.should_unpack_parent node.1
             then drainScan sel node.2 idx else ScanRes.exhausted idx) with
      | .bugScan => .bug
      | .yieldLeaf a cs2 idx2 =>
        .ok (some a, { st with node_stack := ((node.1, cs2), idx2, rc + 1) :: rest })
      | .descend child cs2 idx2 =>
        drainNext f { st with
          node_stack := (child, 0, 0) :: ((node.1, cs2), idx2, rc) :: rest }
      | .exhausted _ =>
        match popNode ec true (node, idx, rc) rest with
        | (some rt, stack2) =>
          .ok (none, ⟨stack2, ⟨rt.1, st.original_size - rt.2⟩, st.original_size⟩)
        | (none, stack2) => drainNext f { st with node_stack := stack2 }

/-- The reassembly loop inside `DrainIterator::drop`: repeatedly pop
frames until the root is reached, then write the root and size back.
The fuel argument is instantiated with the stack length by `drainDrop`;
since every `popNode` shortens the stack by one, that fuel is exact. -/
def drainDropLoop (osize : Nat) :
    Nat → List (Frame α E) → RTreeI α E → RTreeI α E
  | _, [], t => t
  | 0, _ :: _, t => t
  | f + 1, fr :: rest, t =>
    match popNode ec false fr rest with
    | (some rt, _) => ⟨rt.1, osize - rt.2⟩
    | (none, stack2) => drainDropLoop osize f stack2 t

/-- Source `DrainIterator::drop`: a no-op if the stack is already empty,
otherwise run the reassembly loop. -/
def drainDrop (st : DrainState α E) : RTreeI α E :=
  if st.node_stack.isEmpty then st.rtree
  else drainDropLoop ec st.original_size st.node_stack.length st.node_stack st.rtree

/-- `Iterator::take`-style driver: pull at most `k` elements, stopping
early if the iterator signals exhaustion. -/
def drainTake (fuel : Nat) : Nat → DrainState α E → Res (List α × DrainState α E)
  | 0, st => .ok ([], st)
  | k + 1, st =>
    match drainNext sel ec fuel st with
    | .fuel => .fuel
    | .bug => .bug
    | .ok (none, st2) => .ok ([], st2)
    | .ok (some a, st2) =>
      match drainTake fuel k st2 with
      | .ok (ys, st3) => .ok (a :: ys, st3)
      | .fuel => .fuel
      | .bug => .bug

end Drain

section Model

variable {α E : Type}

mutual

/-- Elements stored in a node, in depth-first order. -/
def elemsNode : RTreeNode α E → List α
  | .Leaf a => [a]
  | .Parent _ cs => elemsList cs

/-- Elements stored in a list of nodes, in depth-first order. -/
def elemsList : List (RTreeNode α E) → List α
  | [] => []
  | c :: cs => elemsNode c ++ elemsList cs

end

/-- Elements stored in a list of nodes, as a multiset. -/
def melems (cs : List (RTreeNode α E)) : Multiset α := ↑(elemsList cs)

variable (ec : EnvCalc α E) [DecidableEq E]

mutual

/-- Every interior node in this subtree caches exactly the union of its
children's envelopes. -/
def envOKNode : RTreeNode α E → Bool
  | .Leaf _ => true
  | .Parent e cs => decide (e = envelope_for_children ec cs) && envOKKids cs

/-- `envOKNode` for every node in the list. -/
def envOKKids : List (RTreeNode α E) → Bool
  | [] => true
  | c :: cs => envOKNode c && envOKKids cs

end

/-- Envelope consistency for a root node: its own cache is consistent and
so is every interior node below it. -/
def envOKP (p : ParentNode α E) : Bool :=
  decide (p.1 = envelope_for_children ec p.2) && envOKKids ec p.2

mutual

/-- No interior node in this subtree has zero children. -/
def neNode : RTreeNode α E → Bool
  | .Leaf _ => true
  | .Parent _ cs => !cs.isEmpty && neKids cs

/-- `neNode` for every node in the list. -/
def neKids : List (RTreeNode α E) → Bool
  | [] => true
  | c :: cs => neNode c && neKids cs

end

variable (sel : SelectionFunction α E)

mutual

/-- No element reachable through predicate-accepted envelopes in this
subtree is accepted by the leaf predicate: running removal on such a
subtree removes nothing. -/
def cleanN : RTreeNode α E → Prop
  | .Leaf a => sel.should_unpack_leaf a = false
  | .Parent e cs => sel.should_unpack_parent e = false ∨ cleanL cs

/-- `cleanN` for every node in the list. -/
def cleanL : List (RTreeNode α E) → Prop
  | [] => True
  | c :: cs => cleanN c ∧ cleanL cs

end

/-- `cleanN` at the root level. -/
def cleanP (p : ParentNode α E) : Prop :=
  sel.should_unpack_parent p.1 = false ∨ cleanL sel p.2

mutual

/-- Modelled from the spec: the first predicate-accepted leaf element
encountered in a depth-first, children-in-order traversal restricted to
subtrees whose envelopes the predicate accepts.  This is the
specification-side description of what `remove` returns, to be compared
with the source embedding `removeOp`. -/
def specFirstN : RTreeNode α E → Option α
  | .Leaf a => if sel.should_unpack_leaf a then some a else none
  | .Parent e cs => if sel.should_unpack_parent e then specFirstL cs else none

/-- `specFirstN` over a list of children, in order. -/
def specFirstL : List (RTreeNode α E) → Option α
  | [] => none
  | c :: cs =>
    match specFirstN c with
    | some a => some a
    | none => specFirstL cs

end

/-- `specFirstN` at the root level. -/
def specFirstP (p : ParentNode α E) : Option α :=
  if sel.should_unpack_parent p.1 then specFirstL sel p.2 else none

end Model

section Invariants

variable {α E : Type}

/-- Sum of the per-frame removed-element counters on the stack. -/
def sumRC : List (Frame α E) → Nat
  | [] => 0
  | fr :: s => fr.2.2 + sumRC s

/-- Multiset of all elements stored in the stacked frame nodes. -/
def stackElems : List (Frame α E) → Multiset α
  | [] => 0
  | fr :: s => melems fr.1.2 + stackElems s

variable (ec : EnvCalc α E)

/-- A top frame with a zero removed-count still caches the fold of some
permutation of its children's envelopes (children may have been reordered
by swap-removal and reattachment, but nothing was removed). -/
def topEnvOK (fr : Frame α E) : Prop :=
  fr.2.2 = 0 →
    ∃ es, es.Perm (fr.1.2.map (envOf ec)) ∧ fr.1.1 = foldE ec es

/-- A non-top frame is missing exactly one child — the frame detached
above it, whose cached envelope is `he`; with a zero removed-count its
own cache is the fold of some permutation of its children's envelopes
plus that hole. -/
def belowEnvOK (he : E) (fr : Frame α E) : Prop :=
  fr.2.2 = 0 →
    ∃ es, es.Perm (fr.1.2.map (envOf ec) ++ [he]) ∧ fr.1.1 = foldE ec es

variable [DecidableEq E]

/-- All current children of a frame node are fully well-formed subtrees. -/
def kidsOK (cs : List (RTreeNode α E)) : Prop :=
  envOKKids ec cs = true ∧ neKids cs = true

/-- Well-formedness of the stack below the top frame, threading each
frame's hole envelope downward. -/
def stackBelow : E → List (Frame α E) → Prop
  | _, [] => True
  | he, fr :: s => kidsOK ec fr.1.2 ∧ belowEnvOK ec he fr ∧ stackBelow fr.1.1 s

/-- Well-formedness of the whole drain stack. -/
def stackOK : List (Frame α E) → Prop
  | [] => True
  | fr :: s => kidsOK ec fr.1.2 ∧ topEnvOK ec fr ∧ stackBelow ec fr.1.1 s

/-- A non-root top frame that has become empty must have removed
something (its removed-count is positive). -/
def topNE : List (Frame α E) → Prop
  | fr :: _ :: _ => fr.1.2 = [] → 0 < fr.2.2
  | _ => True

/-- The drain-traversal invariant, relating a reachable iterator state to
the original element multiset `t0`, the original size `osize`, and the
multiset `y` of elements yielded so far. -/
structure DInv (t0 : Multiset α) (osize : Nat) (y : Multiset α)
    (st : DrainState α E) : Prop where
  hos : osize = Multiset.card t0
  hsize : st.original_size = osize
  hstack : stackOK ec st.node_stack
  htop : topNE st.node_stack
  helems : stackElems st.node_stack + y = t0
  hrc : sumRC st.node_stack = Multiset.card y
  hne : st.node_stack ≠ []

/-- What holds of the written-back index after the drain finishes (by
exhaustion or by early drop): the tree holds exactly the original
elements minus the yielded ones, the size accounts for every yielded
element, every envelope cache is consistent and every emptied interior
node was pruned. -/
structure FinalOK (t0 : Multiset α) (osize : Nat) (y : Multiset α)
    (t : RTreeI α E) : Prop where
  felems : melems t.root.2 + y = t0
  fsize : t.size + Multiset.card y = osize
  fenv : envOKP ec t.root = true
  fne : neKids t.root.2 = true

/-- Either the iterator is still live with its invariant, or it has
already finished and written back a correct tree. -/
def PostState (t0 : Multiset α) (osize : Nat) (y : Multiset α)
    (st : DrainState α E) : Prop :=
  DInv ec t0 osize y st ∨
    (st.node_stack = [] ∧ FinalOK ec t0 osize y st.rtree)

end Invariants

/-- Whether a fuelled result is one of the source's `unreachable!()`
outcomes. -/
def isBug {β : Type} : Res β → Bool
  | .bug => true
  | _ => false

section Concrete

/-- Concrete envelope model on naturals: union is `max`, the empty
envelope is `0`, an element is its own envelope. -/
def ecNat : EnvCalc Nat Nat := ⟨0, Nat.max, fun a => a⟩

/-- Predicate accepting every envelope and exactly the element `0`. -/
def selOnlyZero : SelectionFunction Nat Nat := ⟨fun _ => true, fun a => a == 0⟩

/-- Predicate accepting everything. -/
def selEvery : SelectionFunction Nat Nat := ⟨fun _ => true, fun _ => true⟩

/-- The tree on which full-mode `remove_recursive` never terminates: a
root holding a matching leaf followed by a non-emptied parent child. -/
def loopTree : ParentNode Nat Nat := (1, [.Leaf 0, .Parent 1 [.Leaf 1]])

/-- The inner child of `loopTree`. -/
def loopInner : ParentNode Nat Nat := (1, [.Leaf 1])

end Concrete

section ListLemmas

variable {γ : Type}

theorem set_get_self (cs : List γ) (i : Nat) (h : i < cs.length) :
    cs.set i (cs.get ⟨i, h⟩) = cs := by
  induction cs generalizing i with
  | nil => simp at h
  | cons c rest ih =>
    cases i with
    | zero => simp
    | succ j =>
      simp only [List.length_cons, Nat.succ_lt_succ_iff] at h
      show c :: rest.set j (rest.get ⟨j, h⟩) = c :: rest
      rw [ih j h]

theorem lastPerm (l : List γ) (b : γ) (hb : l.getLast? = some b) :
    (b :: l.dropLast).Perm l := by
  induction l with
  | nil => simp at hb
  | cons a tl ih =>
    cases tl with
    | nil =>
      simp only [List.getLast?_singleton, Option.some.injEq] at hb
      subst hb
      simp
    | cons c tl2 =>
      rw [List.getLast?_cons_cons] at hb
      have h2 := ih hb
      have he : (b :: (a :: c :: tl2).dropLast) = b :: a :: (c :: tl2).dropLast := by
        simp
      rw [he]
      exact (List.Perm.swap a b _).trans (List.Perm.cons a h2)

theorem swapRemove_cons (c : γ) (rest : List γ) (i : Nat) (h : rest ≠ []) :
    swapRemove (c :: rest) (i + 1) = c :: swapRemove rest i := by
  cases rest with
  | nil => exact absurd rfl h
  | cons r rs =>
    unfold swapRemove
    rw [List.getLast?_cons_cons]
    have hne : (r :: rs).getLast? = some ((r :: rs).getLast (by simp)) :=
      List.getLast?_eq_getLast _ _
    rw [hne]
    simp only [List.set]
    rw [List.dropLast_cons_of_ne_nil]
    exact List.ne_nil_of_length_pos (by simp)

theorem swapRemove_perm (cs : List γ) (i : Nat) (h : i < cs.length) :
    (cs.get ⟨i, h⟩ :: swapRemove cs i).Perm cs := by
  induction cs generalizing i with
  | nil => simp at h
  | cons c rest ih =>
    cases i with
    | zero =>
      cases rest with
      | nil => simp [swapRemove]
      | cons r rs =>
        have hb : (c :: r :: rs).getLast? = some ((r :: rs).getLast (by simp)) := by
          rw [List.getLast?_cons_cons]
          exact List.getLast?_eq_getLast _ _
        show (c :: swapRemove (c :: r :: rs) 0).Perm (c :: r :: rs)
        unfold swapRemove
        rw [hb]
        simp only [List.set]
        rw [List.dropLast_cons_of_ne_nil (by simp)]
        refine List.Perm.cons c ?_
        exact lastPerm (r :: rs) _ (List.getLast?_eq_getLast _ _)
    | succ j =>
      simp only [List.length_cons, Nat.succ_lt_succ_iff] at h
      have hrest : rest ≠ [] := by
        intro he
        rw [he] at h
        simp at h
      rw [swapRemove_cons c rest j hrest]
      show (rest.get ⟨j, h⟩ :: c :: swapRemove rest j).Perm (c :: rest)
      exact (List.Perm.swap c (rest.get ⟨j, h⟩) _).trans
        (List.Perm.cons c (ih j h))

end ListLemmas

section ElemLemmas

variable {α E : Type}

theorem melems_nil : melems ([] : List (RTreeNode α E)) = 0 := rfl

theorem melems_cons (c : RTreeNode α E) (cs : List (RTreeNode α E)) :
    melems (c :: cs) = ↑(elemsNode c) + melems cs := by
  simp [melems, elemsList]

theorem melems_append (cs ds : List (RTreeNode α E)) :
    melems (cs ++ ds) = melems cs + melems ds := by
  induction cs with
  | nil => simp [melems, elemsList]
  | cons c rest ih =>
    rw [List.cons_append, melems_cons, melems_cons, ih, add_assoc]

theorem melems_perm {cs ds : List (RTreeNode α E)} (h : cs.Perm ds) :
    melems cs = melems ds := by
  induction h with
  | nil => rfl
  | cons c _ ih => rw [melems_cons, melems_cons, ih]
  | swap x y l =>
    rw [melems_cons, melems_cons, melems_cons, melems_cons]
    abel
  | trans _ _ ih1 ih2 => rw [ih1, ih2]

theorem melems_set (cs : List (RTreeNode α E)) (i : Nat) (h : i < cs.length)
    (v : RTreeNode α E) :
    melems (cs.set i v) + ↑(elemsNode (cs.get ⟨i, h⟩)) =
      melems cs + ↑(elemsNode v) := by
  induction cs generalizing i with
  | nil => simp at h
  | cons c rest ih =>
    cases i with
    | zero =>
      show melems (v :: rest) + ↑(elemsNode c) = melems (c :: rest) + ↑(elemsNode v)
      rw [melems_cons, melems_cons]
      abel
    | succ j =>
      simp only [List.length_cons, Nat.succ_lt_succ_iff] at h
      show melems (c :: rest.set j v) + ↑(elemsNode (rest.get ⟨j, h⟩)) =
        melems (c :: rest) + ↑(elemsNode v)
      rw [melems_cons, melems_cons, add_assoc, ih j h, add_assoc]

theorem melems_eraseIdx (cs : List (RTreeNode α E)) (i : Nat) (h : i < cs.length) :
    melems (cs.eraseIdx i) + ↑(elemsNode (cs.get ⟨i, h⟩)) = melems cs := by
  induction cs generalizing i with
  | nil => simp at h
  | cons c rest ih =>
    cases i with
    | zero =>
      show melems rest + ↑(elemsNode c) = melems (c :: rest)
      rw [melems_cons]
      abel
    | succ j =>
      simp only [List.length_cons, Nat.succ_lt_succ_iff] at h
      show melems (c :: rest.eraseIdx j) + ↑(elemsNode (rest.get ⟨j, h⟩)) =
        melems (c :: rest)
      rw [melems_cons, melems_cons, add_assoc, ih j h]

theorem melems_swapRemove (cs : List (RTreeNode α E)) (i : Nat)
    (h : i < cs.length) :
    melems (swapRemove cs i) + ↑(elemsNode (cs.get ⟨i, h⟩)) = melems cs := by
  have hp := swapRemove_perm cs i h
  have := melems_perm hp
  rw [melems_cons] at this
  rw [← this]
  abel

end ElemLemmas

section KidsLemmas

variable {α E : Type} (ec : EnvCalc α E) [DecidableEq E]

theorem envOKKids_iff (cs : List (RTreeNode α E)) :
    envOKKids ec cs = true ↔ ∀ c ∈ cs, envOKNode ec c = true := by
  induction cs with
  | nil => simp [envOKKids]
  | cons c rest ih =>
    simp [envOKKids, ih]

theorem neKids_iff (cs : List (RTreeNode α E)) :
    neKids cs = true ↔ ∀ c ∈ cs, neNode c = true := by
  induction cs with
  | nil => simp [neKids]
  | cons c rest ih =>
    simp [neKids, ih]

theorem envOKKids_set {cs : List (RTreeNode α E)} {i : Nat} {v : RTreeNode α E}
    (hcs : envOKKids ec cs = true) (hv : envOKNode ec v = true) :
    envOKKids ec (cs.set i v) = true := by
  rw [envOKKids_iff] at hcs ⊢
  intro c hc
  rcases List.mem_or_eq_of_mem_set hc with hmem | heq
  · exact hcs c hmem
  · rw [heq]; exact hv

theorem neKids_set {cs : List (RTreeNode α E)} {i : Nat} {v : RTreeNode α E}
    (hcs : neKids cs = true) (hv : neNode v = true) :
    neKids (cs.set i v) = true := by
  rw [neKids_iff] at hcs ⊢
  intro c hc
  rcases List.mem_or_eq_of_mem_set hc with hmem | heq
  · exact hcs c hmem
  · rw [heq]; exact hv

theorem envOKKids_eraseIdx {cs : List (RTreeNode α E)} {i : Nat}
    (hcs : envOKKids ec cs = true) :
    envOKKids ec (cs.eraseIdx i) = true := by
  rw [envOKKids_iff] at hcs ⊢
  intro c hc
  exact hcs c ((cs.eraseIdx_sublist i).mem hc)

theorem neKids_eraseIdx {cs : List (RTreeNode α E)} {i : Nat}
    (hcs : neKids cs = true) :
    neKids (cs.eraseIdx i) = true := by
  rw [neKids_iff] at hcs ⊢
  intro c hc
  exact hcs c ((cs.eraseIdx_sublist i).mem hc)

theorem envOKKids_swapRemove {cs : List (RTreeNode α E)} {i : Nat}
    (h : i < cs.length) (hcs : envOKKids ec cs = true) :
    envOKKids ec (swapRemove cs i) = true := by
  rw [envOKKids_iff] at hcs ⊢
  intro c hc
  exact hcs c ((swapRemove_perm cs i h).mem_iff.mp (List.mem_cons_of_mem _ hc))

theorem neKids_swapRemove {cs : List (RTreeNode α E)} {i : Nat}
    (h : i < cs.length) (hcs : neKids cs = true) :
    neKids (swapRemove cs i) = true := by
  rw [neKids_iff] at hcs ⊢
  intro c hc
  exact hcs c ((swapRemove_perm cs i h).mem_iff.mp (List.mem_cons_of_mem _ hc))

theorem envOKKids_append {cs ds : List (RTreeNode α E)}
    (h1 : envOKKids ec cs = true) (h2 : envOKKids ec ds = true) :
    envOKKids ec (cs ++ ds) = true := by
  rw [envOKKids_iff] at h1 h2 ⊢
  intro c hc
  rcases List.mem_append.mp hc with h | h
  · exact h1 c h
  · exact h2 c h

theorem neKids_append {cs ds : List (RTreeNode α E)}
    (h1 : neKids cs = true) (h2 : neKids ds = true) :
    neKids (cs ++ ds) = true := by
  rw [neKids_iff] at h1 h2 ⊢
  intro c hc
  rcases List.mem_append.mp hc with h | h
  · exact h1 c h
  · exact h2 c h

theorem envOKKids_get {cs : List (RTreeNode α E)} {i : Nat} (h : i < cs.length)
    (hcs : envOKKids ec cs = true) : envOKNode ec (cs.get ⟨i, h⟩) = true :=
  (envOKKids_iff ec cs).mp hcs _ (cs.get_mem i h)

theorem neKids_get {cs : List (RTreeNode α E)} {i : Nat} (h : i < cs.length)
    (hcs : neKids cs = true) : neNode (cs.get ⟨i, h⟩) = true :=
  (neKids_iff cs).mp hcs _ (cs.get_mem i h)

end KidsLemmas

section RemoveLemmas

variable {α E : Type} (sel : SelectionFunction α E) (ec : EnvCalc α E)

/-- Combined fuel induction: a run of `remove_recursive` returning an
empty result leaves the node unchanged (the loop additionally forces the
accumulated result to have been empty). -/
theorem removeRec_loop_empty (f : Nat) :
    (∀ (first : Bool) (p : ParentNode α E) r p2,
      removeRec sel ec first f p = .ok (r, p2) → r = [] → p2 = p) ∧
    (∀ (first : Bool) cs (i : Nat) res r cs2,
      removeLoop sel ec first f cs i res = .ok (r, cs2) → r = [] →
        res = [] ∧ cs2 = cs) := by
  induction f with
  | zero =>
    constructor
    · intro first p r p2 h
      simp [removeRec] at h
    · intro first cs i res r cs2 h
      simp [removeLoop] at h
  | succ f ih =>
    constructor
    · intro first p r p2 h hr
      subst hr
      rw [removeRec] at h
      by_cases hsp : sel.should_unpack_parent p.1
      · rw [if_pos hsp] at h
        cases hl : removeLoop sel ec first f p.2 0 [] with
        | fuel => simp [hl] at h
        | bug => simp [hl] at h
        | ok pr =>
          obtain ⟨res, cs⟩ := pr
          simp only [hl] at h
          by_cases hres : res.isEmpty
          · rw [if_pos hres] at h
            simp only [Res.ok.injEq, Prod.mk.injEq] at h
            obtain ⟨hr1, hr2⟩ := h
            have hcs := (ih.2 first p.2 0 [] res cs hl hr1).2
            rw [← hr2, hcs]
          · rw [if_neg hres] at h
            simp only [Res.ok.injEq, Prod.mk.injEq] at h
            obtain ⟨hr1, hr2⟩ := h
            rw [hr1] at hres
            simp at hres
      · rw [if_neg hsp] at h
        simp only [Res.ok.injEq, Prod.mk.injEq] at h
        exact h.2.symm
    · intro first cs i res r cs2 h hr
      subst hr
      rw [removeLoop] at h
      by_cases hlen : i < cs.length
      · rw [dif_pos hlen] at h
        cases hg : cs.get ⟨i, hlen⟩ with
        | Parent e ccs =>
          simp only [hg] at h
          cases hrec : removeRec sel ec first f (e, ccs) with
          | fuel => simp [hrec] at h
          | bug => simp [hrec] at h
          | ok pr =>
            obtain ⟨res2, p2⟩ := pr
            simp only [hrec] at h
            by_cases hres1 : (res ++ res2).isEmpty
            · rw [if_pos hres1] at h
              have h2 := ih.2 first _ _ _ _ _ h rfl
              simp only [List.isEmpty_iff, List.append_eq_nil] at hres1
              obtain ⟨hresn, hres2n⟩ := hres1
              refine ⟨hresn, ?_⟩
              rw [h2.2]
              have hp2 : p2 = (e, ccs) := ih.1 first (e, ccs) res2 p2 hrec hres2n
              rw [hp2]
              have hgs : (RTreeNode.Parent e ccs : RTreeNode α E) = cs.get ⟨i, hlen⟩ := hg.symm
              rw [hgs, set_get_self]
            · rw [if_neg hres1] at h
              by_cases hfirst : first = true
              · rw [hfirst] at h
                simp only [if_true] at h
                simp only [Res.ok.injEq, Prod.mk.injEq] at h
                rw [h.1] at hres1
                simp at hres1
              · rw [Bool.not_eq_true] at hfirst
                rw [hfirst] at h
                simp only [Bool.false_eq_true, if_false] at h
                have h2 := ih.2 false _ _ _ _ _ h rfl
                rw [h2.1] at hres1
                simp at hres1
        | Leaf a =>
          simp only [hg] at h
          by_cases hacc : sel.should_unpack_leaf a
          · rw [if_pos hacc] at h
            by_cases hfirst : first = true
            · rw [hfirst] at h
              simp only [if_true] at h
              simp only [Res.ok.injEq, Prod.mk.injEq] at h
              have h1 := h.1
              simp at h1
            · rw [Bool.not_eq_true] at hfirst
              rw [hfirst] at h
              simp only [Bool.false_eq_true, if_false] at h
              have h2 := ih.2 false _ _ _ _ _ h rfl
              have h1 := h2.1
              simp at h1
          · rw [if_neg hacc] at h
            exact ih.2 first _ _ _ _ _ h rfl
      · rw [dif_neg hlen] at h
        simp only [Res.ok.injEq, Prod.mk.injEq] at h
        exact ⟨h.1, h.2.symm⟩

end RemoveLemmas

section MoreListLemmas

variable {γ : Type}

theorem set_eraseIdx_self (cs : List γ) (i : Nat) (v : γ) :
    (cs.set i v).eraseIdx i = cs.eraseIdx i := by
  induction cs generalizing i with
  | nil => simp
  | cons c rest ih =>
    cases i with
    | zero => simp [List.eraseIdx]
    | succ j => simp [List.eraseIdx, ih j]

theorem take_set_self (cs : List γ) (i : Nat) (v : γ) :
    (cs.set i v).take i = cs.take i := by
  induction cs generalizing i with
  | nil => simp
  | cons c rest ih =>
    cases i with
    | zero => simp
    | succ j => simp [ih j]

theorem take_eraseIdx_self (cs : List γ) (i : Nat) :
    (cs.eraseIdx i).take i = cs.take i := by
  induction cs generalizing i with
  | nil => simp
  | cons c rest ih =>
    cases i with
    | zero => simp [List.eraseIdx]
    | succ j => simp [List.eraseIdx, ih j]

theorem take_succ_get (cs : List γ) (i : Nat) (h : i < cs.length) :
    cs.take (i + 1) = cs.take i ++ [cs.get ⟨i, h⟩] := by
  induction cs generalizing i with
  | nil => simp at h
  | cons c rest ih =>
    cases i with
    | zero => simp
    | succ j =>
      simp only [List.length_cons, Nat.succ_lt_succ_iff] at h
      show c :: rest.take (j + 1) = (c :: rest.take j) ++ [rest.get ⟨j, h⟩]
      rw [ih j h]
      simp

theorem take_succ_set (cs : List γ) (i : Nat) (h : i < cs.length) (v : γ) :
    (cs.set i v).take (i + 1) = cs.take i ++ [v] := by
  have h2 : i < (cs.set i v).length := by simpa using h
  rw [take_succ_get _ i h2, take_set_self]
  congr 1
  simp [List.get_set_eq]

theorem take_all_of_le (cs : List γ) (i : Nat) (h : cs.length ≤ i) :
    cs.take i = cs := List.take_of_length_le h

theorem get_zero_cons (a : γ) (l : List γ) (h : 0 < (a :: l).length) :
    (a :: l).get ⟨0, h⟩ = a := rfl

theorem drop_get_cons (cs : List γ) (i : Nat) (h : i < cs.length) :
    cs.drop i = cs.get ⟨i, h⟩ :: cs.drop (i + 1) := by
  induction cs generalizing i with
  | nil => simp at h
  | cons c rest ih =>
    cases i with
    | zero => simp
    | succ j =>
      simp only [List.length_cons, Nat.succ_lt_succ_iff] at h
      show rest.drop j = rest.get ⟨j, h⟩ :: rest.drop (j + 1)
      exact ih j h

end MoreListLemmas

section CleanLemmas

variable {α E : Type} (sel : SelectionFunction α E)

theorem cleanL_iff (cs : List (RTreeNode α E)) :
    cleanL sel cs ↔ ∀ c ∈ cs, cleanN sel c := by
  induction cs with
  | nil => simp [cleanL]
  | cons c rest ih => simp [cleanL, ih]

theorem cleanN_parent (e : E) (cs : List (RTreeNode α E)) :
    cleanN sel (.Parent e cs) =
      (sel.should_unpack_parent e = false ∨ cleanL sel cs) := by
  rw [cleanN]

theorem cleanN_leaf (a : α) :
    cleanN sel (.Leaf a) = (sel.should_unpack_leaf a = false) := by
  rw [cleanN]

theorem elems_mem_of_mem {c : RTreeNode α E} {cs : List (RTreeNode α E)}
    (hc : c ∈ cs) {a : α} (ha : a ∈ elemsNode c) : a ∈ elemsList cs := by
  induction cs with
  | nil => simp at hc
  | cons d rest ih =>
    rcases List.mem_cons.mp hc with h | h
    · subst h
      simp [elemsList, ha]
    · simp [elemsList, ih h]

mutual

/-- A subtree none of whose elements is accepted by the leaf predicate is
clean. -/
theorem cleanN_of_noacc : ∀ c : RTreeNode α E,
    (∀ a ∈ elemsNode c, sel.should_unpack_leaf a = false) → cleanN sel c
  | .Leaf a, h => by
    rw [cleanN_leaf]
    exact h a (by simp [elemsNode])
  | .Parent e cs, h => by
    rw [cleanN_parent]
    exact Or.inr (cleanL_of_noacc cs (by simpa [elemsNode] using h))

/-- List version of `cleanN_of_noacc`. -/
theorem cleanL_of_noacc : ∀ cs : List (RTreeNode α E),
    (∀ a ∈ elemsList cs, sel.should_unpack_leaf a = false) → cleanL sel cs
  | [], _ => by simp [cleanL]
  | c :: rest, h => by
    rw [cleanL]
    refine ⟨cleanN_of_noacc c fun a ha => h a ?_, cleanL_of_noacc rest fun a ha => h a ?_⟩
    · simp [elemsList, ha]
    · simp [elemsList, ha]

end

end CleanLemmas

section CleanRunLemmas

variable {α E : Type} (sel : SelectionFunction α E) (ec : EnvCalc α E)

theorem cleanL_append_one {cs : List (RTreeNode α E)} {c : RTreeNode α E} :
    cleanL sel (cs ++ [c]) ↔ cleanL sel cs ∧ cleanN sel c := by
  rw [cleanL_iff, cleanL_iff]
  constructor
  · intro h
    exact ⟨fun d hd => h d (by simp [hd]), h c (by simp)⟩
  · intro h d hd
    rcases List.mem_append.mp hd with h1 | h1
    · exact h.1 d h1
    · rw [List.mem_singleton.mp h1]
      exact h.2

/-- Running removal on a clean node removes nothing and leaves the node
unchanged, in either mode. -/
theorem removeRec_clean (f : Nat) :
    (∀ (first : Bool) (p : ParentNode α E) r p2, cleanP sel p →
      removeRec sel ec first f p = .ok (r, p2) → r = [] ∧ p2 = p) ∧
    (∀ (first : Bool) cs (i : Nat) r cs2, cleanL sel cs →
      removeLoop sel ec first f cs i [] = .ok (r, cs2) → r = [] ∧ cs2 = cs) := by
  induction f with
  | zero =>
    constructor
    · intro first p r p2 _ h
      simp [removeRec] at h
    · intro first cs i r cs2 _ h
      simp [removeLoop] at h
  | succ f ih =>
    constructor
    · intro first p r p2 hcl h
      rw [removeRec] at h
      by_cases hsp : sel.should_unpack_parent p.1
      · rw [if_pos hsp] at h
        rcases hcl with hrej | hclean
        · rw [hrej] at hsp
          simp at hsp
        cases hl : removeLoop sel ec first f p.2 0 [] with
        | fuel => simp [hl] at h
        | bug => simp [hl] at h
        | ok pr =>
          obtain ⟨res, cs⟩ := pr
          simp only [hl] at h
          have h2 := ih.2 first p.2 0 res cs hclean hl
          rw [h2.1] at h
          simp only [List.isEmpty_nil, if_true] at h
          simp only [Res.ok.injEq, Prod.mk.injEq] at h
          refine ⟨h.1.symm, ?_⟩
          rw [← h.2, h2.2]
      · rw [if_neg hsp] at h
        simp only [Res.ok.injEq, Prod.mk.injEq] at h
        exact ⟨h.1.symm, h.2.symm⟩
    · intro first cs i r cs2 hcl h
      rw [removeLoop] at h
      by_cases hlen : i < cs.length
      · rw [dif_pos hlen] at h
        have hcn := (cleanL_iff sel cs).mp hcl _ (cs.get_mem i hlen)
        cases hg : cs.get ⟨i, hlen⟩ with
        | Parent e ccs =>
          rw [hg] at hcn
          rw [cleanN_parent] at hcn
          simp only [hg] at h
          cases hrec : removeRec sel ec first f (e, ccs) with
          | fuel => simp [hrec] at h
          | bug => simp [hrec] at h
          | ok pr =>
            obtain ⟨res2, p2⟩ := pr
            simp only [hrec] at h
            have h2 := ih.1 first (e, ccs) res2 p2 hcn hrec
            rw [h2.1, h2.2] at h
            have hgs : (RTreeNode.Parent e ccs : RTreeNode α E) = cs.get ⟨i, hlen⟩ := hg.symm
            rw [hgs, set_get_self] at h
            simp only [List.append_nil, List.isEmpty_nil, if_true] at h
            exact ih.2 first cs (i + 1) r cs2 hcl h
        | Leaf a =>
          rw [hg] at hcn
          rw [cleanN_leaf] at hcn
          simp only [hg] at h
          rw [if_neg (by rw [hcn]; exact Bool.false_ne_true)] at h
          exact ih.2 first cs (i + 1) r cs2 hcl h
      · rw [dif_neg hlen] at h
        simp only [Res.ok.injEq, Prod.mk.injEq] at h
        exact ⟨h.1.symm, h.2.symm⟩

/-- A completed full-mode removal leaves a clean node: running it again
removes nothing. -/
theorem removeRec_makes_clean (f : Nat) :
    (∀ (p : ParentNode α E) r p2,
      removeRec sel ec false f p = .ok (r, p2) → cleanP sel p2) ∧
    (∀ cs (i : Nat) res r cs2,
      removeLoop sel ec false f cs i res = .ok (r, cs2) →
        cleanL sel (cs.take i) → cleanL sel cs2) := by
  induction f with
  | zero =>
    constructor
    · intro p r p2 h
      simp [removeRec] at h
    · intro cs i res r cs2 h
      simp [removeLoop] at h
  | succ f ih =>
    constructor
    · intro p r p2 h
      rw [removeRec] at h
      by_cases hsp : sel.should_unpack_parent p.1
      · rw [if_pos hsp] at h
        cases hl : removeLoop sel ec false f p.2 0 [] with
        | fuel => simp [hl] at h
        | bug => simp [hl] at h
        | ok pr =>
          obtain ⟨res, cs⟩ := pr
          simp only [hl] at h
          have hclean := ih.2 p.2 0 [] res cs hl (by simp [cleanL])
          by_cases hres : res.isEmpty
          · rw [if_pos hres] at h
            simp only [Res.ok.injEq, Prod.mk.injEq] at h
            rw [← h.2]
            exact Or.inr hclean
          · rw [if_neg hres] at h
            simp only [Res.ok.injEq, Prod.mk.injEq] at h
            rw [← h.2]
            exact Or.inr hclean
      · rw [if_neg hsp] at h
        simp only [Res.ok.injEq, Prod.mk.injEq] at h
        rw [← h.2]
        exact Or.inl (by simpa using hsp)
    · intro cs i res r cs2 h htake
      rw [removeLoop] at h
      by_cases hlen : i < cs.length
      · rw [dif_pos hlen] at h
        cases hg : cs.get ⟨i, hlen⟩ with
        | Parent e ccs =>
          simp only [hg] at h
          cases hrec : removeRec sel ec false f (e, ccs) with
          | fuel => simp [hrec] at h
          | bug => simp [hrec] at h
          | ok pr =>
            obtain ⟨res2, p2⟩ := pr
            simp only [hrec] at h
            have hclean2 : cleanN sel (.Parent p2.1 p2.2) := by
              rw [cleanN_parent]
              exact ih.1 (e, ccs) res2 p2 hrec
            by_cases hres1 : (res ++ res2).isEmpty
            · rw [if_pos hres1] at h
              refine ih.2 _ (i + 1) _ r cs2 h ?_
              rw [take_succ_set cs i hlen]
              exact (cleanL_append_one sel).mpr ⟨htake, hclean2⟩
            · rw [if_neg hres1] at h
              by_cases hemp : p2.2.isEmpty
              · rw [if_pos hemp] at h
                simp only [Bool.false_eq_true, if_false] at h
                refine ih.2 _ i _ r cs2 h ?_
                rw [set_eraseIdx_self, take_eraseIdx_self]
                exact htake
              · rw [if_neg hemp] at h
                simp only [Bool.false_eq_true, if_false] at h
                refine ih.2 _ i _ r cs2 h ?_
                rw [take_set_self]
                exact htake
        | Leaf a =>
          simp only [hg] at h
          by_cases hacc : sel.should_unpack_leaf a
          · rw [if_pos hacc] at h
            simp only [Bool.false_eq_true, if_false] at h
            refine ih.2 _ i _ r cs2 h ?_
            rw [take_eraseIdx_self]
            exact htake
          · rw [if_neg hacc] at h
            refine ih.2 _ (i + 1) _ r cs2 h ?_
            rw [take_succ_get cs i hlen, hg]
            refine (cleanL_append_one sel).mpr ⟨htake, ?_⟩
            rw [cleanN_leaf]
            exact Bool.not_eq_true _ ▸ (by simpa using hacc)
      · rw [dif_neg hlen] at h
        simp only [Res.ok.injEq, Prod.mk.injEq] at h
        rw [← h.2]
        rw [take_all_of_le cs i (Nat.le_of_not_lt hlen)] at htake
        exact htake

end CleanRunLemmas

section WfLemmas

variable {α E : Type} (sel : SelectionFunction α E) (ec : EnvCalc α E) [DecidableEq E]

theorem envOKNode_parent (e : E) (cs : List (RTreeNode α E)) :
    envOKNode ec (.Parent e cs) =
      (decide (e = envelope_for_children ec cs) && envOKKids ec cs) := by
  rw [envOKNode]

theorem neNode_parent (e : E) (cs : List (RTreeNode α E)) :
    neNode (.Parent e cs : RTreeNode α E) = (!cs.isEmpty && neKids cs) := by
  rw [neNode]

/-- A completed removal (either mode) preserves envelope consistency and
the no-empty-interior-node invariant. -/
theorem removeRec_wf (f : Nat) :
    (∀ (first : Bool) (p : ParentNode α E) r p2,
      removeRec sel ec first f p = .ok (r, p2) →
      envOKP ec p = true → neKids p.2 = true →
        envOKP ec p2 = true ∧ neKids p2.2 = true) ∧
    (∀ (first : Bool) cs (i : Nat) res r cs2,
      removeLoop sel ec first f cs i res = .ok (r, cs2) →
      envOKKids ec cs = true → neKids cs = true →
        envOKKids ec cs2 = true ∧ neKids cs2 = true) := by
  induction f with
  | zero =>
    constructor
    · intro first p r p2 h
      simp [removeRec] at h
    · intro first cs i res r cs2 h
      simp [removeLoop] at h
  | succ f ih =>
    constructor
    · intro first p r p2 h henv hne
      rw [removeRec] at h
      by_cases hsp : sel.should_unpack_parent p.1
      · rw [if_pos hsp] at h
        cases hl : removeLoop sel ec first f p.2 0 [] with
        | fuel => simp [hl] at h
        | bug => simp [hl] at h
        | ok pr =>
          obtain ⟨res, cs⟩ := pr
          simp only [hl] at h
          have hkids : envOKKids ec p.2 = true := by
            simp only [envOKP, Bool.and_eq_true] at henv
            exact henv.2
          have hloop := ih.2 first p.2 0 [] res cs hl hkids hne
          by_cases hres : res.isEmpty
          · rw [if_pos hres] at h
            simp only [Res.ok.injEq, Prod.mk.injEq] at h
            have hcse : cs = p.2 :=
              ((removeRec_loop_empty sel ec f).2 first p.2 0 [] res cs hl
                (List.isEmpty_iff.mp hres)).2
            rw [← h.2]
            rw [hcse]
            exact ⟨henv, hne⟩
          · rw [if_neg hres] at h
            simp only [Res.ok.injEq, Prod.mk.injEq] at h
            rw [← h.2]
            refine ⟨?_, hloop.2⟩
            simp [envOKP, hloop.1]
      · rw [if_neg hsp] at h
        simp only [Res.ok.injEq, Prod.mk.injEq] at h
        rw [← h.2]
        exact ⟨henv, hne⟩
    · intro first cs i res r cs2 h henv hne
      rw [removeLoop] at h
      by_cases hlen : i < cs.length
      · rw [dif_pos hlen] at h
        cases hg : cs.get ⟨i, hlen⟩ with
        | Parent e ccs =>
          simp only [hg] at h
          have henvc : envOKNode ec (.Parent e ccs) = true := by
            rw [← hg]
            exact envOKKids_get ec hlen henv
          have hnec : neNode (.Parent e ccs : RTreeNode α E) = true := by
            rw [← hg]
            exact neKids_get hlen hne
          rw [envOKNode_parent, Bool.and_eq_true, decide_eq_true_iff] at henvc
          rw [neNode_parent, Bool.and_eq_true] at hnec
          cases hrec : removeRec sel ec first f (e, ccs) with
          | fuel => simp [hrec] at h
          | bug => simp [hrec] at h
          | ok pr =>
            obtain ⟨res2, p2⟩ := pr
            simp only [hrec] at h
            have hrecwf := ih.1 first (e, ccs) res2 p2 hrec
              (by simp only [envOKP, Bool.and_eq_true, decide_eq_true_iff]
                  exact ⟨henvc.1, henvc.2⟩) hnec.2
            have henv1 : envOKKids ec (cs.set i (.Parent p2.1 p2.2)) = true := by
              refine envOKKids_set ec henv ?_
              rw [envOKNode_parent, Bool.and_eq_true, decide_eq_true_iff]
              simp only [envOKP, Bool.and_eq_true, decide_eq_true_iff] at hrecwf
              exact ⟨hrecwf.1.1, hrecwf.1.2⟩
            by_cases hres1 : (res ++ res2).isEmpty
            · rw [if_pos hres1] at h
              simp only [List.isEmpty_iff, List.append_eq_nil] at hres1
              have hp2 : p2 = (e, ccs) :=
                (removeRec_loop_empty sel ec f).1 first (e, ccs) res2 p2 hrec hres1.2
              rw [hp2] at h
              have hgs : (RTreeNode.Parent e ccs : RTreeNode α E) = cs.get ⟨i, hlen⟩ := hg.symm
              rw [hgs, set_get_self] at h
              exact ih.2 first cs (i + 1) _ r cs2 h henv hne
            · rw [if_neg hres1] at h
              by_cases hemp : p2.2.isEmpty
              · rw [if_pos hemp] at h
                rw [set_eraseIdx_self] at h
                have henv2 := envOKKids_eraseIdx ec (i := i) henv
                have hne2 := neKids_eraseIdx (i := i) hne
                by_cases hfirst : first = true
                · rw [hfirst] at h
                  simp only [if_true] at h
                  simp only [Res.ok.injEq, Prod.mk.injEq] at h
                  rw [← h.2]
                  exact ⟨henv2, hne2⟩
                · rw [Bool.not_eq_true] at hfirst
                  rw [hfirst] at h
                  simp only [Bool.false_eq_true, if_false] at h
                  exact ih.2 false (cs.eraseIdx i) i _ r cs2 h henv2 hne2
              · rw [if_neg hemp] at h
                have hne1 : neKids (cs.set i (.Parent p2.1 p2.2)) = true := by
                  refine neKids_set hne ?_
                  rw [neNode_parent, Bool.and_eq_true]
                  refine ⟨?_, hrecwf.2⟩
                  simp only [Bool.not_eq_true']
                  exact Bool.not_eq_true _ ▸ (by simpa using hemp)
                by_cases hfirst : first = true
                · rw [hfirst] at h
                  simp only [if_true] at h
                  simp only [Res.ok.injEq, Prod.mk.injEq] at h
                  rw [← h.2]
                  exact ⟨henv1, hne1⟩
                · rw [Bool.not_eq_true] at hfirst
                  rw [hfirst] at h
                  simp only [Bool.false_eq_true, if_false] at h
                  exact ih.2 false _ i _ r cs2 h henv1 hne1
        | Leaf a =>
          simp only [hg] at h
          by_cases hacc : sel.should_unpack_leaf a
          · rw [if_pos hacc] at h
            have henv2 := envOKKids_eraseIdx ec (i := i) henv
            have hne2 := neKids_eraseIdx (i := i) hne
            by_cases hfirst : first = true
            · rw [hfirst] at h
              simp only [if_true] at h
              simp only [Res.ok.injEq, Prod.mk.injEq] at h
              rw [← h.2]
              exact ⟨henv2, hne2⟩
            · rw [Bool.not_eq_true] at hfirst
              rw [hfirst] at h
              simp only [Bool.false_eq_true, if_false] at h
              exact ih.2 false _ i _ r cs2 h henv2 hne2
          · rw [if_neg hacc] at h
            exact ih.2 first cs (i + 1) res r cs2 h henv hne
      · rw [dif_neg hlen] at h
        simp only [Res.ok.injEq, Prod.mk.injEq] at h
        rw [← h.2]
        exact ⟨henv, hne⟩

end WfLemmas

section FirstMatchLemmas

variable {α E : Type} (sel : SelectionFunction α E) (ec : EnvCalc α E)

theorem elemsNode_leaf (a : α) : elemsNode (.Leaf a : RTreeNode α E) = [a] := by
  rw [elemsNode]

theorem elemsNode_parent (e : E) (cs : List (RTreeNode α E)) :
    elemsNode (.Parent e cs) = elemsList cs := by
  rw [elemsNode]

theorem specFirstN_leaf (a : α) :
    specFirstN sel (.Leaf a : RTreeNode α E) =
      (if sel.should_unpack_leaf a then some a else none) := by
  rw [specFirstN]

theorem specFirstN_parent (e : E) (cs : List (RTreeNode α E)) :
    specFirstN sel (.Parent e cs) = specFirstP sel (e, cs) := by
  rw [specFirstN, specFirstP]

theorem specFirstL_cons (c : RTreeNode α E) (cs : List (RTreeNode α E)) :
    specFirstL sel (c :: cs) =
      (match specFirstN sel c with
       | some a => some a
       | none => specFirstL sel cs) := by
  rw [specFirstL]

/-- First-only removal removes exactly the specification-side first match
(and nothing when there is none). -/
theorem removeRec_first (f : Nat) :
    (∀ (p : ParentNode α E) r p2,
      removeRec sel ec true f p = .ok (r, p2) →
      (match specFirstP sel p with
       | some a => r = [a] ∧ melems p2.2 + {a} = melems p.2
       | none => r = [] ∧ p2 = p)) ∧
    (∀ cs (i : Nat) r cs2,
      removeLoop sel ec true f cs i [] = .ok (r, cs2) →
      (match specFirstL sel (cs.drop i) with
       | some a => r = [a] ∧ melems cs2 + {a} = melems cs
       | none => r = [] ∧ cs2 = cs)) := by
  induction f with
  | zero =>
    constructor
    · intro p r p2 h
      simp [removeRec] at h
    · intro cs i r cs2 h
      simp [removeLoop] at h
  | succ f ih =>
    constructor
    · intro p r p2 h
      rw [removeRec] at h
      by_cases hsp : sel.should_unpack_parent p.1
      · rw [if_pos hsp] at h
        cases hl : removeLoop sel ec true f p.2 0 [] with
        | fuel => simp [hl] at h
        | bug => simp [hl] at h
        | ok pr =>
          obtain ⟨res, cs⟩ := pr
          simp only [hl] at h
          have hloop := ih.2 p.2 0 res cs hl
          rw [List.drop_zero] at hloop
          have hspf : specFirstP sel p = specFirstL sel p.2 := by
            rw [specFirstP, if_pos hsp]
          rw [hspf]
          cases hsf : specFirstL sel p.2 with
          | some a =>
            rw [hsf] at hloop
            have hres : res = [a] := hloop.1
            rw [hres] at h
            simp only [List.isEmpty_cons, Bool.false_eq_true, if_false] at h
            simp only [Res.ok.injEq, Prod.mk.injEq] at h
            refine ⟨h.1.symm, ?_⟩
            rw [← h.2]
            exact hloop.2
          | none =>
            rw [hsf] at hloop
            rw [hloop.1] at h
            simp only [List.isEmpty_nil, if_true] at h
            simp only [Res.ok.injEq, Prod.mk.injEq] at h
            refine ⟨h.1.symm, ?_⟩
            rw [← h.2, hloop.2]
      · rw [if_neg hsp] at h
        have hspf : specFirstP sel p = none := by
          rw [specFirstP, if_neg hsp]
        rw [hspf]
        simp only [Res.ok.injEq, Prod.mk.injEq] at h
        exact ⟨h.1.symm, h.2.symm⟩
    · intro cs i r cs2 h
      rw [removeLoop] at h
      by_cases hlen : i < cs.length
      · rw [dif_pos hlen] at h
        rw [drop_get_cons cs i hlen, specFirstL_cons]
        cases hg : cs.get ⟨i, hlen⟩ with
        | Parent e ccs =>
          simp only [hg] at h
          rw [specFirstN_parent]
          cases hrec : removeRec sel ec true f (e, ccs) with
          | fuel => simp [hrec] at h
          | bug => simp [hrec] at h
          | ok pr =>
            obtain ⟨res2, p2⟩ := pr
            simp only [hrec] at h
            have hinner := ih.1 (e, ccs) res2 p2 hrec
            cases hsf : specFirstP sel (e, ccs) with
            | some a =>
              rw [hsf] at hinner
              rw [hinner.1] at h
              simp only [List.nil_append, List.isEmpty_cons, Bool.false_eq_true,
                if_false, if_true] at h
              simp only [Res.ok.injEq, Prod.mk.injEq] at h
              refine ⟨h.1.symm, ?_⟩
              rw [← h.2]
              by_cases hemp : p2.2.isEmpty
              · rw [if_pos hemp] at h ⊢
                rw [set_eraseIdx_self]
                have hkey := melems_eraseIdx cs i hlen
                rw [hg, elemsNode_parent] at hkey
                have hccs : melems ccs = {a} := by
                  have h0 : melems p2.2 = 0 := by
                    rw [List.isEmpty_iff.mp hemp]
                    rfl
                  have := hinner.2
                  rw [h0, zero_add] at this
                  exact this.symm
                rw [← hkey]
                show melems (cs.eraseIdx i) + {a} =
                  melems (cs.eraseIdx i) + ↑(elemsList ccs)
                rw [show (↑(elemsList ccs) : Multiset α) = melems ccs from rfl, hccs]
              · rw [if_neg hemp] at h ⊢
                have hkey := melems_set cs i hlen (.Parent p2.1 p2.2)
                rw [hg, elemsNode_parent, elemsNode_parent] at hkey
                have hkey2 : melems (cs.set i (.Parent p2.1 p2.2)) + {a} + melems p2.2 =
                    melems cs + melems p2.2 := by
                  have hml : (↑(elemsList ccs) : Multiset α) = melems p2.2 + {a} := by
                    rw [show (↑(elemsList ccs) : Multiset α) = melems ccs from rfl]
                    exact hinner.2.symm
                  rw [hml] at hkey
                  rw [show (↑(elemsList p2.2) : Multiset α) = melems p2.2 from rfl] at hkey
                  calc melems (cs.set i (.Parent p2.1 p2.2)) + {a} + melems p2.2
                      = melems (cs.set i (.Parent p2.1 p2.2)) + (melems p2.2 + {a}) := by abel
                    _ = melems cs + melems p2.2 := hkey
                exact add_right_cancel hkey2
            | none =>
              rw [hsf] at hinner
              rw [hinner.1, hinner.2] at h
              have hgs : (RTreeNode.Parent e ccs : RTreeNode α E) = cs.get ⟨i, hlen⟩ := hg.symm
              rw [hgs, set_get_self] at h
              simp only [List.append_nil, List.isEmpty_nil, if_true] at h
              have := ih.2 cs (i + 1) r cs2 h
              exact this
        | Leaf a =>
          simp only [hg] at h
          rw [specFirstN_leaf]
          by_cases hacc : sel.should_unpack_leaf a
          · rw [if_pos hacc] at h ⊢
            simp only [if_true] at h
            simp only [Res.ok.injEq, Prod.mk.injEq] at h
            refine ⟨by rw [← h.1]; rfl, ?_⟩
            rw [← h.2]
            have hkey := melems_eraseIdx cs i hlen
            rw [hg, elemsNode_leaf] at hkey
            rw [← hkey]
            rfl
          · rw [if_neg hacc] at h ⊢
            exact ih.2 cs (i + 1) r cs2 h
      · rw [dif_neg hlen] at h
        rw [List.drop_eq_nil_of_le (Nat.le_of_not_lt hlen)]
        rw [specFirstL]
        simp only [Res.ok.injEq, Prod.mk.injEq] at h
        exact ⟨h.1.symm, h.2.symm⟩

end FirstMatchLemmas

section NoBugLemmas

variable {α E : Type} (sel : SelectionFunction α E) (ec : EnvCalc α E)

/-- Neither `remove_recursive` nor its scan loop ever reaches an
`unreachable!()` arm. -/
theorem removeRec_no_bug (f : Nat) :
    (∀ (first : Bool) (p : ParentNode α E), removeRec sel ec first f p ≠ .bug) ∧
    (∀ (first : Bool) cs (i : Nat) res,
      removeLoop sel ec first f cs i res ≠ .bug) := by
  induction f with
  | zero =>
    constructor
    · intro first p h
      simp [removeRec] at h
    · intro first cs i res h
      simp [removeLoop] at h
  | succ f ih =>
    constructor
    · intro first p h
      rw [removeRec] at h
      by_cases hsp : sel.should_unpack_parent p.1
      · rw [if_pos hsp] at h
        cases hl : removeLoop sel ec first f p.2 0 [] with
        | fuel => simp [hl] at h
        | bug => exact ih.2 first p.2 0 [] hl
        | ok pr =>
          obtain ⟨res, cs⟩ := pr
          simp only [hl] at h
          by_cases hres : res.isEmpty
          · rw [if_pos hres] at h
            exact Res.noConfusion h
          · rw [if_neg hres] at h
            exact Res.noConfusion h
      · rw [if_neg hsp] at h
        exact Res.noConfusion h
    · intro first cs i res h
      rw [removeLoop] at h
      by_cases hlen : i < cs.length
      · rw [dif_pos hlen] at h
        cases hg : cs.get ⟨i, hlen⟩ with
        | Parent e ccs =>
          simp only [hg] at h
          cases hrec : removeRec sel ec first f (e, ccs) with
          | fuel => simp [hrec] at h
          | bug => exact ih.1 first (e, ccs) hrec
          | ok pr =>
            obtain ⟨res2, p2⟩ := pr
            simp only [hrec] at h
            by_cases hres1 : (res ++ res2).isEmpty
            · rw [if_pos hres1] at h
              exact ih.2 first _ (i + 1) _ h
            · rw [if_neg hres1] at h
              by_cases hfirst : first = true
              · rw [hfirst] at h
                simp only [if_true] at h
                exact Res.noConfusion h
              · rw [Bool.not_eq_true] at hfirst
                rw [hfirst] at h
                simp only [Bool.false_eq_true, if_false] at h
                exact ih.2 false _ i _ h
        | Leaf a =>
          simp only [hg] at h
          by_cases hacc : sel.should_unpack_leaf a
          · rw [if_pos hacc] at h
            by_cases hfirst : first = true
            · rw [hfirst] at h
              simp only [if_true] at h
              exact Res.noConfusion h
            · rw [Bool.not_eq_true] at hfirst
              rw [hfirst] at h
              simp only [Bool.false_eq_true, if_false] at h
              exact ih.2 false _ i _ h
          · rw [if_neg hacc] at h
            exact ih.2 first cs (i + 1) res h
      · rw [dif_neg hlen] at h
        exact Res.noConfusion h

end NoBugLemmas

section LoopBugLemmas

/-- The inner child of `loopTree` contains no matching element, so full
removal on it either runs out of fuel or removes nothing. -/
theorem removeRec_loopInner (g : Nat) :
    removeRec selOnlyZero ecNat false g loopInner = .fuel ∨
    removeRec selOnlyZero ecNat false g loopInner = .ok ([], loopInner) := by
  match g with
  | 0 => exact Or.inl rfl
  | 1 => exact Or.inl rfl
  | 2 =>
    left
    rw [removeRec]
    rw [if_pos (show selOnlyZero.should_unpack_parent loopInner.1 = true from rfl)]
    have h1 : removeLoop selOnlyZero ecNat false 1 loopInner.2 0 [] = .fuel := by
      rw [removeLoop]
      rw [dif_pos (show 0 < (loopInner.2).length from by decide)]
      rfl
    rw [h1]
  | (g + 3) =>
    right
    rw [removeRec]
    rw [if_pos (show selOnlyZero.should_unpack_parent loopInner.1 = true from rfl)]
    have h1 : removeLoop selOnlyZero ecNat false (g + 2) loopInner.2 0 [] =
        removeLoop selOnlyZero ecNat false (g + 1) [.Leaf 1] 1 [] := by
      rw [removeLoop]
      rw [dif_pos (show 0 < (loopInner.2).length from by decide)]
      rfl
    have h2 : removeLoop selOnlyZero ecNat false (g + 1) [.Leaf 1] 1 [] =
        .ok ([], [.Leaf 1]) := by
      rw [removeLoop]
      rw [dif_neg (show ¬(1 < ([(.Leaf 1 : RTreeNode Nat Nat)]).length) from by decide)]
    rw [h1, h2]
    rfl

/-- Once the accumulated result is non-empty, the scan loop on the
non-emptied parent child makes no progress: it consumes all fuel. -/
theorem removeLoop_stuck (g : Nat) :
    ∀ res : List Nat, res ≠ [] →
    removeLoop selOnlyZero ecNat false g [.Parent 1 [.Leaf 1]] 0 res = .fuel := by
  induction g with
  | zero => intro res _; rfl
  | succ g ih =>
    intro res hres
    rw [removeLoop]
    rw [dif_pos (show 0 < ([(.Parent 1 [.Leaf 1] : RTreeNode Nat Nat)]).length from by decide)]
    simp only [get_zero_cons]
    cases hrec : removeRec selOnlyZero ecNat false g ((1 : Nat), [RTreeNode.Leaf (1 : Nat)]) with
    | fuel => simp [hrec]
    | bug =>
      exact absurd hrec ((removeRec_no_bug selOnlyZero ecNat g).1 false _)
    | ok pr =>
      obtain ⟨res2, p2⟩ := pr
      have hli : removeRec selOnlyZero ecNat false g loopInner = .ok (res2, p2) := hrec
      rcases removeRec_loopInner g with hf | hok
      · rw [hli] at hf
        exact absurd hf (by simp)
      · rw [hli] at hok
        simp only [Res.ok.injEq, Prod.mk.injEq] at hok
        obtain ⟨hres2, hp2⟩ := hok
        simp only [hrec]
        rw [hres2, hp2]
        have hne : (res ++ ([] : List Nat)).isEmpty = false := by
          cases res with
          | nil => exact absurd rfl hres
          | cons a l => rfl
        rw [if_neg (by rw [hne]; exact Bool.false_ne_true)]
        rw [if_neg (show ¬((loopInner.2).isEmpty = true) from by
          rw [show loopInner.2 = [RTreeNode.Leaf (1 : Nat)] from rfl]
          simp)]
        rw [if_neg (show ¬(false = true) from by simp)]
        have hset : ([(.Parent 1 [.Leaf 1] : RTreeNode Nat Nat)]).set 0
            (.Parent loopInner.1 loopInner.2) = [.Parent 1 [.Leaf 1]] := rfl
        rw [hset, List.append_nil]
        exact ih res hres

/-- Full-mode `remove_recursive` on `loopTree` never returns: the source
loop re-enters the drained-but-non-empty parent child forever. -/
theorem removeRec_loopTree_fuel (f : Nat) :
    removeRec selOnlyZero ecNat false f loopTree = .fuel := by
  match f with
  | 0 => rfl
  | 1 => rfl
  | (f + 2) =>
    rw [removeRec]
    rw [if_pos (show selOnlyZero.should_unpack_parent loopTree.1 = true from rfl)]
    have hstep : removeLoop selOnlyZero ecNat false (f + 1) loopTree.2 0 [] =
        removeLoop selOnlyZero ecNat false f [.Parent 1 [.Leaf 1]] 0 [0] := by
      rw [removeLoop]
      rw [dif_pos (show 0 < (loopTree.2).length from by decide)]
      rfl
    rw [hstep, removeLoop_stuck f [0] (by simp)]

end LoopBugLemmas

section PermHelpers

variable {γ : Type}

theorem set_cons_perm {tl : List γ} {j : Nat} {b : γ} (h : tl.get? j = some b)
    (a : γ) : (b :: tl.set j a).Perm (a :: tl) := by
  induction tl generalizing j with
  | nil => simp at h
  | cons d tl2 ih =>
    cases j with
    | zero =>
      simp only [List.get?_cons_zero, Option.some.injEq] at h
      subst h
      simp only [List.set]
      exact List.Perm.swap a d tl2
    | succ j2 =>
      simp only [List.get?_cons_succ] at h
      show (b :: d :: tl2.set j2 a).Perm (a :: d :: tl2)
      exact ((List.Perm.swap d b _).trans (List.Perm.cons d (ih h))).trans
        (List.Perm.swap a d tl2)

theorem set_set_perm : ∀ (cs : List γ) (i j : Nat) (a b : γ),
    cs.get? i = some a → cs.get? j = some b → ((cs.set i b).set j a).Perm cs := by
  intro cs
  induction cs with
  | nil =>
    intro i j a b hi _
    simp at hi
  | cons c tl ih =>
    intro i j a b hi hj
    cases i with
    | zero =>
      simp only [List.get?_cons_zero, Option.some.injEq] at hi
      subst hi
      cases j with
      | zero =>
        simp only [List.get?_cons_zero, Option.some.injEq] at hj
        subst hj
        simp only [List.set]
        exact List.Perm.refl _
      | succ j2 =>
        simp only [List.get?_cons_succ] at hj
        simp only [List.set]
        exact set_cons_perm hj c
    | succ i2 =>
      simp only [List.get?_cons_succ] at hi
      cases j with
      | zero =>
        simp only [List.get?_cons_zero, Option.some.injEq] at hj
        subst hj
        simp only [List.set]
        exact set_cons_perm hi c
      | succ j2 =>
        simp only [List.get?_cons_succ] at hj
        simp only [List.set]
        exact List.Perm.cons c (ih i2 j2 a b hi hj)

theorem listSwap_perm (cs : List γ) (i j : Nat) : (listSwap cs i j).Perm cs := by
  unfold listSwap
  cases hi : cs.get? i with
  | none => exact List.Perm.refl cs
  | some a =>
    cases hj : cs.get? j with
    | none => exact List.Perm.refl cs
    | some b => exact set_set_perm cs i j a b hi hj

end PermHelpers

section FoldPerm

variable {α E : Type} (ec : EnvCalc α E)

/-- With a commutative and associative merge, the fold of the envelopes is
permutation-invariant. -/
theorem foldE_perm (hcm : ∀ a b, ec.merge a b = ec.merge b a)
    (has : ∀ a b c, ec.merge (ec.merge a b) c = ec.merge a (ec.merge b c))
    {es es2 : List E} (hp : es.Perm es2) : foldE ec es = foldE ec es2 :=
  hp.foldl_eq' (fun x _ y _ z => by rw [has, has, hcm x y]) ec.emptyE

end FoldPerm

section ScanLemmas

variable {α E : Type} (sel : SelectionFunction α E)

/-- Characterization of the scan loop inside `next`: either it hits an
in-bounds parent child to descend into, an in-bounds accepted leaf to
yield, or the children are exhausted; it never hits the unreachable
arms. -/
theorem drainScanGo_spec (cs : List (RTreeNode α E)) :
    ∀ (n idx : Nat),
    match drainScanGo sel cs n idx with
    | .bugScan => False
    | .exhausted _ => True
    | .yieldLeaf a cs2 j => ∃ h : j < cs.length,
        cs.get ⟨j, h⟩ = .Leaf a ∧ sel.should_unpack_leaf a = true ∧
          cs2 = swapRemove cs j
    | .descend ch cs2 j => ∃ h : j < cs.length,
        cs.get ⟨j, h⟩ = .Parent ch.1 ch.2 ∧ cs2 = swapRemove cs j := by
  intro n
  induction n with
  | zero =>
    intro idx
    rw [drainScanGo]
    trivial
  | succ n ihn =>
    intro idx
    by_cases hlt : idx < cs.length
    · cases hg : cs.get ⟨idx, hlt⟩ with
      | Parent e ccs =>
        have hv : drainScanGo sel cs (n + 1) idx =
            .descend (e, ccs) (swapRemove cs idx) idx := by
          rw [drainScanGo]
          rw [dif_pos hlt]
          simp only [hg]
        rw [hv]
        exact ⟨hlt, hg, rfl⟩
      | Leaf a =>
        cases hacc : sel.should_unpack_leaf a with
        | true =>
          have hv : drainScanGo sel cs (n + 1) idx =
              .yieldLeaf a (swapRemove cs idx) idx := by
            rw [drainScanGo]
            rw [dif_pos hlt]
            simp only [hg, hacc]
            rfl
          rw [hv]
          exact ⟨hlt, hg, hacc, rfl⟩
        | false =>
          have hv : drainScanGo sel cs (n + 1) idx =
              drainScanGo sel cs n (idx + 1) := by
            rw [drainScanGo]
            rw [dif_pos hlt]
            simp only [hg, hacc]
            rfl
          rw [hv]
          exact ihn (idx + 1)
    · have hv : drainScanGo sel cs (n + 1) idx = .exhausted idx := by
        rw [drainScanGo]
        rw [dif_neg hlt]
      rw [hv]
      trivial

/-- Characterization of the scan loop inside `next`: either it hits an
in-bounds parent child to descend into, an in-bounds accepted leaf to
yield, or the children are exhausted; it never hits the unreachable
arms. -/
theorem drainScan_spec (cs : List (RTreeNode α E)) (idx : Nat) :
    match drainScan sel cs idx with
    | .bugScan => False
    | .exhausted _ => True
    | .yieldLeaf a cs2 j => ∃ h : j < cs.length,
        cs.get ⟨j, h⟩ = .Leaf a ∧ sel.should_unpack_leaf a = true ∧
          cs2 = swapRemove cs j
    | .descend ch cs2 j => ∃ h : j < cs.length,
        cs.get ⟨j, h⟩ = .Parent ch.1 ch.2 ∧ cs2 = swapRemove cs j := by
  rw [drainScan]
  exact drainScanGo_spec sel cs (cs.length - idx) idx

end ScanLemmas

section DrainBasics

variable {α E : Type} (sel : SelectionFunction α E) (ec : EnvCalc α E)

/-- With an empty stack, `next` immediately returns `none` and leaves the
state untouched. -/
theorem drainNext_empty (f : Nat) (st : DrainState α E)
    (h : st.node_stack = []) : drainNext sel ec (f + 1) st = .ok (none, st) := by
  rw [drainNext, h]

/-- With an empty stack, `drop` is a no-op. -/
theorem drainDrop_empty (st : DrainState α E) (h : st.node_stack = []) :
    drainDrop ec st = st.rtree := by
  rw [drainDrop, h]
  rfl

end DrainBasics

section PopLemmas

variable {α E : Type} (sel : SelectionFunction α E) (ec : EnvCalc α E) [DecidableEq E]

theorem kidsOK_perm {cs cs2 : List (RTreeNode α E)} (hp : cs.Perm cs2)
    (h : kidsOK ec cs) : kidsOK ec cs2 := by
  obtain ⟨h1, h2⟩ := h
  refine ⟨?_, ?_⟩
  · rw [envOKKids_iff] at h1 ⊢
    exact fun c hc => h1 c (hp.mem_iff.mpr hc)
  · rw [neKids_iff] at h2 ⊢
    exact fun c hc => h2 c (hp.mem_iff.mpr hc)

theorem kidsOK_append_one {cs : List (RTreeNode α E)} {c : RTreeNode α E}
    (h : kidsOK ec cs) (h1 : envOKNode ec c = true) (h2 : neNode c = true) :
    kidsOK ec (cs ++ [c]) := by
  refine ⟨envOKKids_append ec h.1 ?_, neKids_append h.2 ?_⟩
  · simp [envOKKids, h1]
  · simp [neKids, h2]

theorem melems_single (c : RTreeNode α E) : melems [c] = ↑(elemsNode c) := by
  rw [melems]
  have h1 : elemsList [c] = elemsNode c ++ [] := by
    rw [elemsList]
    rw [elemsList]
  rw [h1, List.append_nil]

/-- Specification of `pop_node`: at the root frame it returns the
(re-enveloped) node and the total removed-count with the stack emptied;
otherwise it reattaches or prunes the popped node into the frame below,
preserving the stack invariant, the stored elements and the removed-count
sum. -/
theorem popNode_spec (hcm : ∀ a b, ec.merge a b = ec.merge b a)
    (has : ∀ a b c, ec.merge (ec.merge a b) c = ec.merge a (ec.merge b c))
    (inc : Bool) (fr : Frame α E) (rest : List (Frame α E))
    (hK : kidsOK ec fr.1.2) (hT : topEnvOK ec fr)
    (hB : stackBelow ec fr.1.1 rest) (hTN : topNE (fr :: rest)) :
    match popNode ec inc fr rest with
    | (some rt, stack2) => rest = [] ∧ stack2 = [] ∧ rt.2 = fr.2.2 ∧
        melems rt.1.2 = melems fr.1.2 ∧ envOKP ec rt.1 = true ∧
        neKids rt.1.2 = true
    | (none, stack2) => stackOK ec stack2 ∧ topNE stack2 ∧
        stackElems stack2 = stackElems (fr :: rest) ∧
        sumRC stack2 = sumRC (fr :: rest) ∧ stack2 ≠ [] := by
  have hnd2 : (if 0 < fr.2.2 then
      (envelope_for_children ec fr.1.2, fr.1.2) else fr.1).2 = fr.1.2 := by
    split <;> rfl
  have hndEnv : (if 0 < fr.2.2 then
      (envelope_for_children ec fr.1.2, fr.1.2) else fr.1).1 =
      envelope_for_children ec fr.1.2 := by
    by_cases hrc : 0 < fr.2.2
    · rw [if_pos hrc]
    · rw [if_neg hrc]
      have h0 : fr.2.2 = 0 := by omega
      obtain ⟨es, hperm, heq⟩ := hT h0
      rw [heq]
      exact foldE_perm ec hcm has hperm
  have hrc0node : fr.2.2 = 0 → (if 0 < fr.2.2 then
      (envelope_for_children ec fr.1.2, fr.1.2) else fr.1) = fr.1 := by
    intro h0
    rw [if_neg (by omega)]
  cases rest with
  | nil =>
    simp only [popNode]
    set nd : ParentNode α E :=
      (if 0 < fr.2.2 then (envelope_for_children ec fr.1.2, fr.1.2) else fr.1)
      with hnd
    refine ⟨by trivial, by trivial, by trivial, ?_, ?_, ?_⟩
    · rw [hnd2]
    · simp only [envOKP, Bool.and_eq_true, decide_eq_true_iff]
      rw [hnd2, hndEnv]
      exact ⟨rfl, hK.1⟩
    · rw [hnd2]
      exact hK.2
  | cons p rest2 =>
    obtain ⟨pn, pidx, prc⟩ := p
    rw [stackBelow] at hB
    obtain ⟨hKp, hBe, hBrest⟩ := hB
    simp only [popNode]
    set nd : ParentNode α E :=
      (if 0 < fr.2.2 then (envelope_for_children ec fr.1.2, fr.1.2) else fr.1)
      with hnd
    by_cases hemp : nd.2.isEmpty = true
    · rw [if_pos hemp]
      have hfre : fr.1.2 = [] := by
        rw [← hnd2]
        exact List.isEmpty_iff.mp hemp
      have hrcpos : 0 < fr.2.2 := hTN hfre
      refine ⟨?_, ?_, ?_, ?_, by simp⟩
      · rw [stackOK]
        refine ⟨hKp, ?_, hBrest⟩
        intro h0
        dsimp only at h0
        omega
      · cases rest2 with
        | nil => trivial
        | cons q rest3 =>
          intro _
          dsimp only
          omega
      · rw [stackElems, stackElems, stackElems]
        dsimp only
        rw [hfre]
        rw [show melems ([] : List (RTreeNode α E)) = 0 from rfl, zero_add]
      · rw [sumRC, sumRC, sumRC]
        dsimp only
        omega
    · rw [if_neg hemp]
      have hndne : nd.2 ≠ [] := by
        intro hc
        rw [hc] at hemp
        exact hemp rfl
      have hReEnv : envOKNode ec (.Parent nd.1 nd.2) = true := by
        rw [envOKNode_parent, Bool.and_eq_true, decide_eq_true_iff]
        rw [hnd2, hndEnv]
        exact ⟨rfl, hK.1⟩
      have hReNe : neNode (.Parent nd.1 nd.2 : RTreeNode α E) = true := by
        rw [neNode_parent, Bool.and_eq_true]
        refine ⟨?_, by rw [hnd2]; exact hK.2⟩
        simp only [Bool.not_eq_true']
        rw [← Bool.not_eq_true]
        exact hemp
      have hKpcs : kidsOK ec (pn.2 ++ [RTreeNode.Parent nd.1 nd.2]) :=
        kidsOK_append_one ec hKp hReEnv hReNe
      have hMapPerm : ∀ (pcs2 : List (RTreeNode α E)) (pidx2 : Nat),
          pcs2.Perm (pn.2 ++ [RTreeNode.Parent nd.1 nd.2]) →
          stackOK ec (((pn.1, pcs2), pidx2, prc + fr.2.2) :: rest2) ∧
          melems pcs2 = melems pn.2 + melems fr.1.2 := by
        intro pcs2 pidx2 hperm2
        have hmel : melems pcs2 = melems pn.2 + melems fr.1.2 := by
          rw [melems_perm hperm2, melems_append, melems_single,
            elemsNode_parent, hnd2]
          rfl
        refine ⟨?_, hmel⟩
        rw [stackOK]
        dsimp only
        refine ⟨kidsOK_perm ec hperm2.symm hKpcs, ?_, hBrest⟩
        intro h0
        dsimp only at h0
        have hprc : prc = 0 := by omega
        have hfrc : fr.2.2 = 0 := by omega
        obtain ⟨es, hpe, heq⟩ := hBe hprc
        refine ⟨es, ?_, heq⟩
        refine hpe.trans ?_
        have hmap : (pcs2.map (envOf ec)).Perm
            (pn.2.map (envOf ec) ++ [fr.1.1]) := by
          have hm0 := hperm2.map (envOf ec)
          rw [List.map_append] at hm0
          simp only [List.map_cons, List.map_nil] at hm0
          rw [hrc0node hfrc] at hm0
          simp only [envOf] at hm0
          exact hm0
        exact hmap.symm
      by_cases hinc : inc = true
      · rw [hinc]
        simp only [if_true]
        have hlperm := listSwap_perm (pn.2 ++ [RTreeNode.Parent nd.1 nd.2])
          pidx ((pn.2 ++ [RTreeNode.Parent nd.1 nd.2]).length - 1)
        have hm := hMapPerm _ (pidx + 1) hlperm
        refine ⟨hm.1, ?_, ?_, ?_, by simp⟩
        · cases rest2 with
          | nil => trivial
          | cons q rest3 =>
            intro hceq
            dsimp only at hceq
            exact absurd (congrArg List.length hceq) (by
              rw [hlperm.length_eq]
              simp)
        · rw [stackElems, stackElems, stackElems]
          dsimp only
          rw [hm.2]
          abel
        · rw [sumRC, sumRC, sumRC]
          dsimp only
          omega
      · rw [Bool.not_eq_true] at hinc
        rw [hinc]
        simp only [Bool.false_eq_true, if_false]
        have hm := hMapPerm (pn.2 ++ [RTreeNode.Parent nd.1 nd.2]) pidx
          (List.Perm.refl _)
        refine ⟨hm.1, ?_, ?_, ?_, by simp⟩
        · cases rest2 with
          | nil => trivial
          | cons q rest3 =>
            intro hceq
            dsimp only at hceq
            exact absurd (congrArg List.length hceq) (by simp)
        · rw [stackElems, stackElems, stackElems]
          dsimp only
          rw [hm.2]
          abel
        · rw [sumRC, sumRC, sumRC]
          dsimp only
          omega

end PopLemmas

section NextLemmas

variable {α E : Type} (sel : SelectionFunction α E) (ec : EnvCalc α E) [DecidableEq E]

/-- One pull of the drain iterator: a yielded element keeps the traversal
invariant (with the element accounted), and an exhaustion signal leaves
the stack empty with a correctly written-back tree. -/
theorem drainNext_spec (hcm : ∀ a b, ec.merge a b = ec.merge b a)
    (has : ∀ a b c, ec.merge (ec.merge a b) c = ec.merge a (ec.merge b c)) :
    ∀ (f : Nat) (t0 : Multiset α) (osize : Nat) (y : Multiset α)
      (st : DrainState α E) (r : Option α) (st2 : DrainState α E),
    DInv ec t0 osize y st → drainNext sel ec f st = .ok (r, st2) →
    (match r with
     | some a => DInv ec t0 osize (y + {a}) st2
     | none => st2.node_stack = [] ∧ st2.original_size = osize ∧
         FinalOK ec t0 osize y st2.rtree) := by
  intro f
  induction f with
  | zero =>
    intro t0 osize y st r st2 _ h
    simp [drainNext] at h
  | succ f ih =>
    intro t0 osize y st r st2 hinv h
    obtain ⟨hos, hsize, hstack, htn, helems, hrc, hne⟩ := hinv
    obtain ⟨stack, tree, os⟩ := st
    simp only at hsize hne helems hrc htn hstack
    cases stack with
    | nil => exact absurd rfl hne
    | cons fr rest =>
      obtain ⟨node, idx, rc⟩ := fr
      rw [stackOK] at hstack
      obtain ⟨hK, hT, hBel⟩ := hstack
      rw [drainNext] at h
      dsimp only at h
      have hcard : osize = Multiset.card (stackElems ((node, idx, rc) :: rest)) +
          Multiset.card y := by
        rw [hos, ← helems, Multiset.card_add]
      -- the shared pop path
      have hpopspec := popNode_spec ec hcm has true ((node, idx, rc)) rest
        (by exact hK) (by exact hT) (by exact hBel) (by exact htn)
      have HPOP : ∀ hpp : (match popNode ec true ((node, idx, rc)) rest with
            | (some rt, stack2) =>
              Res.ok (none,
                (⟨stack2, ⟨rt.1, os - rt.2⟩, os⟩ : DrainState α E))
            | (none, stack2) =>
              drainNext sel ec f ⟨stack2, tree, os⟩) = .ok (r, st2),
          (match r with
           | some a => DInv ec t0 osize (y + {a}) st2
           | none => st2.node_stack = [] ∧ st2.original_size = osize ∧
               FinalOK ec t0 osize y st2.rtree) := by
        intro hpp
        cases hp : popNode ec true ((node, idx, rc)) rest with
        | mk opt stack2 =>
          rw [hp] at hpopspec
          cases opt with
          | some rt =>
            rw [hp] at hpp
            simp only at hpp
            obtain ⟨hrest, hs2, hrt2, hmel, henv, hnek⟩ := hpopspec
            simp only [Res.ok.injEq, Prod.mk.injEq] at hpp
            obtain ⟨hr, hst2⟩ := hpp
            subst hr
            subst hst2
            refine ⟨by rw [hs2], by simp [hsize], ?_⟩
            subst hrest
            rw [stackElems, stackElems] at helems hcard
            rw [sumRC, sumRC] at hrc
            constructor
            · show melems rt.1.2 + y = t0
              rw [hmel]
              rw [← helems]
              abel
            · show os - rt.2 + Multiset.card y = osize
              rw [hrt2]
              dsimp only
              rw [hsize]
              have hv : rc = Multiset.card y := by simpa using hrc
              have hle : rc ≤ osize := by
                rw [hcard, hv]
                omega
              rw [← hv]
              exact Nat.sub_add_cancel hle
            · exact henv
            · exact hnek
          | none =>
            rw [hp] at hpp
            simp only at hpp
            obtain ⟨hOK, hTN2, hEl, hRC, hne2⟩ := hpopspec
            refine ih t0 osize y ⟨stack2, tree, os⟩ r st2 ?_ hpp
            exact ⟨hos, hsize, hOK, hTN2, by rw [hEl]; exact helems,
              by rw [hRC]; exact hrc, hne2⟩
      by_cases hcond : (0 < idx || sel.should_unpack_parent node.1) = true
      · rw [if_pos hcond] at h
        have hscanspec := drainScan_spec sel node.2 idx
        cases hscan : drainScan sel node.2 idx with
        | bugScan =>
          rw [hscan] at hscanspec
          exact absurd hscanspec (by simp)
        | exhausted j =>
          rw [hscan] at h
          exact HPOP h
        | yieldLeaf a cs2 j =>
          rw [hscan] at hscanspec h
          obtain ⟨hj, hget, hacc, hcs2⟩ := hscanspec
          simp only [Res.ok.injEq, Prod.mk.injEq] at h
          obtain ⟨hr, hst2⟩ := h
          subst hr
          subst hst2
          have hmelY : melems cs2 + {a} = melems node.2 := by
            have := melems_swapRemove node.2 j hj
            rw [hget] at this
            rw [hcs2]
            rw [← this]
            have : (↑(elemsNode (RTreeNode.Leaf a : RTreeNode α E)) : Multiset α)
                = {a} := by
              rw [elemsNode_leaf]
              rfl
            rw [this]
          refine ⟨hos, hsize, ?_, ?_, ?_, ?_, by simp⟩
          · rw [stackOK]
            refine ⟨⟨?_, ?_⟩, ?_, ?_⟩
            · rw [hcs2]
              exact envOKKids_swapRemove ec hj hK.1
            · rw [hcs2]
              exact neKids_swapRemove hj hK.2
            · intro h0
              dsimp only at h0
              omega
            · exact hBel
          · cases rest with
            | nil => trivial
            | cons q rest2 =>
              intro _
              dsimp only
              omega
          · rw [stackElems]
            dsimp only
            rw [stackElems] at helems
            dsimp only at helems
            rw [← helems, ← hmelY]
            abel
          · rw [sumRC]
            dsimp only
            rw [sumRC] at hrc
            dsimp only at hrc
            rw [Multiset.card_add]
            simp only [Multiset.card_singleton]
            omega
        | descend ch cs2 j =>
          rw [hscan] at hscanspec h
          obtain ⟨hj, hget, hcs2⟩ := hscanspec
          have hchEnv : envOKNode ec (.Parent ch.1 ch.2) = true := by
            rw [← hget]
            exact envOKKids_get ec hj hK.1
          have hchNe : neNode (.Parent ch.1 ch.2 : RTreeNode α E) = true := by
            rw [← hget]
            exact neKids_get hj hK.2
          rw [envOKNode_parent, Bool.and_eq_true, decide_eq_true_iff] at hchEnv
          rw [neNode_parent, Bool.and_eq_true] at hchNe
          have hchne2 : ch.2 ≠ [] := by
            intro hc
            rw [hc] at hchNe
            simp at hchNe
          have hmelD : melems cs2 + melems ch.2 = melems node.2 := by
            have hsw := melems_swapRemove node.2 j hj
            rw [hget, elemsNode_parent] at hsw
            rw [hcs2]
            rw [← hsw]
            rfl
          refine ih t0 osize y _ r st2 ?_ h
          refine ⟨hos, hsize, ?_, ?_, ?_, ?_, by simp⟩
          · rw [stackOK]
            refine ⟨⟨hchEnv.2, hchNe.2⟩, ?_, ?_⟩
            · intro _
              exact ⟨ch.2.map (envOf ec), List.Perm.refl _, hchEnv.1⟩
            · rw [stackBelow]
              dsimp only
              refine ⟨⟨?_, ?_⟩, ?_, ?_⟩
              · rw [hcs2]
                exact envOKKids_swapRemove ec hj hK.1
              · rw [hcs2]
                exact neKids_swapRemove hj hK.2
              · intro h0
                obtain ⟨es, hpe, heq⟩ := hT h0
                refine ⟨es, ?_, heq⟩
                refine hpe.trans ?_
                have hswp := (swapRemove_perm node.2 j hj).map (envOf ec)
                rw [hget] at hswp
                simp only [List.map_cons] at hswp
                rw [show envOf ec (RTreeNode.Parent ch.1 ch.2) = ch.1 from rfl]
                  at hswp
                rw [hcs2]
                exact hswp.symm.trans (List.perm_append_singleton _ _).symm
              · exact hBel
          · intro hc
            exact absurd hc hchne2
          · rw [stackElems, stackElems]
            dsimp only
            rw [stackElems] at helems
            dsimp only at helems
            rw [← helems, ← hmelD]
            abel
          · rw [sumRC, sumRC]
            dsimp only
            rw [sumRC] at hrc
            dsimp only at hrc
            omega
      · rw [if_neg hcond] at h
        exact HPOP h

end NextLemmas

section DropLemmas

variable {α E : Type} (sel : SelectionFunction α E) (ec : EnvCalc α E) [DecidableEq E]

/-- Length of the stack returned by `popNode`: always the length of the
rest of the stack. -/
theorem popNode_length (increment : Bool)
    (fr : Frame α E) (rest : List (Frame α E)) :
    (popNode ec increment fr rest).2.length = rest.length := by
  simp only [popNode]
  cases rest with
  | nil => simp
  | cons p rest2 =>
    obtain ⟨pn, pidx, prc⟩ := p
    dsimp only
    split_ifs <;> simp

/-- The reassembly loop of `Drop` run on a live stack produces a
correctly written-back tree. -/
theorem drainDropLoop_spec
    (hcm : ∀ a b, ec.merge a b = ec.merge b a)
    (has : ∀ a b c, ec.merge (ec.merge a b) c = ec.merge a (ec.merge b c)) :
    ∀ (n : Nat) (stack : List (Frame α E)) (t : RTreeI α E) (t0 : Multiset α)
      (osize : Nat) (y : Multiset α),
    stack.length ≤ n → stack ≠ [] →
    stackOK ec stack → topNE stack →
    stackElems stack + y = t0 → sumRC stack = Multiset.card y →
    osize = Multiset.card t0 →
    FinalOK ec t0 osize y (drainDropLoop ec osize n stack t) := by
  intro n
  induction n with
  | zero =>
    intro stack t t0 osize y hlen hne
    cases stack with
    | nil => exact absurd rfl hne
    | cons fr rest => simp at hlen
  | succ n ih =>
    intro stack t t0 osize y hlen hne hOK hTN hel hsum hos
    cases stack with
    | nil => exact absurd rfl hne
    | cons fr rest =>
      rw [stackOK] at hOK
      obtain ⟨hK, hT, hB⟩ := hOK
      have hspec := popNode_spec ec hcm has false fr rest hK hT hB hTN
      have hcard : osize = Multiset.card (stackElems (fr :: rest)) +
          Multiset.card y := by
        rw [hos, ← hel, Multiset.card_add]
      rw [drainDropLoop]
      cases hp : popNode ec false fr rest with
      | mk opt stack2 =>
        rw [hp] at hspec
        cases opt with
        | some rt =>
          obtain ⟨hrest, hs2, hrt2, hmel, henv, hnek⟩ := hspec
          subst hrest
          rw [stackElems] at hel hcard
          rw [sumRC] at hsum
          constructor
          · show melems rt.1.2 + y = t0
            rw [hmel, ← hel]
            rw [show stackElems ([] : List (Frame α E)) = 0 from rfl]
            abel
          · show osize - rt.2 + Multiset.card y = osize
            rw [hrt2]
            have hv : fr.2.2 = Multiset.card y := by
              rw [← hsum, show sumRC ([] : List (Frame α E)) = 0 from rfl]
              omega
            have hle : fr.2.2 ≤ osize := by
              rw [hcard, hv]
              omega
            rw [← hv]
            exact Nat.sub_add_cancel hle
          · exact henv
          · exact hnek
        | none =>
          obtain ⟨hOK2, hTN2, hEl2, hRC2, hne2⟩ := hspec
          have hlen2 : stack2.length ≤ n := by
            have := popNode_length ec false fr rest
            rw [hp] at this
            simp only at this
            simp only [List.length_cons] at hlen
            omega
          exact ih stack2 t t0 osize y hlen2 hne2 hOK2 hTN2
            (by rw [hEl2]; exact hel) (by rw [hRC2]; exact hsum) hos

/-- `drop` from any live invariant state, or from a finished state,
produces a correctly written-back tree. -/
theorem drainDrop_spec
    (hcm : ∀ a b, ec.merge a b = ec.merge b a)
    (has : ∀ a b c, ec.merge (ec.merge a b) c = ec.merge a (ec.merge b c))
    (t0 : Multiset α) (osize : Nat) (y : Multiset α) (st : DrainState α E)
    (hps : PostState ec t0 osize y st) :
    FinalOK ec t0 osize y (drainDrop ec st) := by
  rcases hps with hinv | ⟨hemp, hfin⟩
  · obtain ⟨hos, hsize, hOK, hTN, hel, hsum, hne⟩ := hinv
    rw [drainDrop]
    rw [if_neg (by
      rw [List.isEmpty_iff]
      exact hne)]
    rw [hsize]
    exact drainDropLoop_spec ec hcm has st.node_stack.length st.node_stack
      st.rtree t0 osize y (Nat.le_refl _) hne hOK hTN hel hsum hos
  · rw [drainDrop_empty ec st hemp]
    exact hfin

end DropLemmas

section TakeLemmas

variable {α E : Type} (sel : SelectionFunction α E) (ec : EnvCalc α E) [DecidableEq E]

/-- Pulling up to `k` elements preserves the invariant (or finishes the
traversal correctly), accounting for every yielded element. -/
theorem drainTake_spec
    (hcm : ∀ a b, ec.merge a b = ec.merge b a)
    (has : ∀ a b c, ec.merge (ec.merge a b) c = ec.merge a (ec.merge b c)) :
    ∀ (k fuel : Nat) (t0 : Multiset α) (osize : Nat) (y : Multiset α)
      (st : DrainState α E) (ys : List α) (st2 : DrainState α E),
    DInv ec t0 osize y st →
    drainTake sel ec fuel k st = .ok (ys, st2) →
    PostState ec t0 osize (y + ↑ys) st2 := by
  intro k
  induction k with
  | zero =>
    intro fuel t0 osize y st ys st2 hinv h
    rw [drainTake] at h
    simp only [Res.ok.injEq, Prod.mk.injEq] at h
    obtain ⟨hys, hst⟩ := h
    subst hys
    subst hst
    exact Or.inl (by simpa using hinv)
  | succ k ih =>
    intro fuel t0 osize y st ys st2 hinv h
    rw [drainTake] at h
    cases hn : drainNext sel ec fuel st with
    | fuel => simp [hn] at h
    | bug => simp [hn] at h
    | ok pr =>
      obtain ⟨ro, st3⟩ := pr
      have hspec := drainNext_spec sel ec hcm has fuel t0 osize y st ro st3 hinv hn
      simp only [hn] at h
      cases ro with
      | none =>
        simp only [Res.ok.injEq, Prod.mk.injEq] at h
        obtain ⟨hys, hst⟩ := h
        subst hys
        subst hst
        exact Or.inr ⟨hspec.1, by simpa using hspec.2.2⟩
      | some a =>
        cases ht : drainTake sel ec fuel k st3 with
        | fuel => simp [ht] at h
        | bug => simp [ht] at h
        | ok pr2 =>
          obtain ⟨ys2, st4⟩ := pr2
          simp only [ht, Res.ok.injEq, Prod.mk.injEq] at h
          obtain ⟨hys, hst⟩ := h
          subst hys
          subst hst
          have hrec := ih fuel t0 osize (y + {a}) st3 ys2 st4 hspec ht
          have heq : y + {a} + ↑ys2 = y + ↑(a :: ys2) := by
            have hcons : (↑(a :: ys2) : Multiset α) = {a} + ↑ys2 := by
              simp [Multiset.cons_coe]
            rw [hcons]
            abel
          rw [heq] at hrec
          exact hrec

/-- The initial drain state satisfies the invariant. -/
theorem drainNew_DInv (t : RTreeI α E)
    (henv : envOKP ec t.root = true) (hne : neKids t.root.2 = true)
    (hsz : t.size = (elemsList t.root.2).length) :
    DInv ec (melems t.root.2) t.size 0 (drainNew ec t) := by
  rw [envOKP, Bool.and_eq_true, decide_eq_true_iff] at henv
  refine ⟨?_, rfl, ?_, ?_, ?_, ?_, by simp [drainNew]⟩
  · rw [hsz, melems]
    exact (Multiset.coe_card _).symm
  · rw [drainNew]
    simp only
    rw [stackOK]
    refine ⟨⟨henv.2, hne⟩, ?_, ?_⟩
    · intro _
      exact ⟨t.root.2.map (envOf ec), List.Perm.refl _, henv.1⟩
    · rw [stackBelow]
      trivial
  · trivial
  · rw [drainNew]
    simp only [stackElems]
    show melems t.root.2 + 0 + 0 = melems t.root.2
    abel
  · rw [drainNew]
    simp only [sumRC]
    simp

end TakeLemmas

section DrainNoBug

variable {α E : Type} (sel : SelectionFunction α E) (ec : EnvCalc α E)

/-- The drain iterator's `next` never reaches an `unreachable!()` arm. -/
theorem drainNext_no_bug : ∀ (f : Nat) (st : DrainState α E),
    drainNext sel ec f st ≠ .bug := by
  intro f
  induction f with
  | zero =>
    intro st h
    simp [drainNext] at h
  | succ f ih =>
    intro st h
    rw [drainNext] at h
    cases hstack : st.node_stack with
    | nil =>
      rw [hstack] at h
      simp at h
    | cons fr rest =>
      obtain ⟨node, idx, rc⟩ := fr
      rw [hstack] at h
      simp only at h
      have hscanspec := drainScan_spec sel node.2 idx
      cases hs : (if (decide (0 < idx) || sel.should_unpack_parent node.1) = true
          then drainScan sel node.2 idx else ScanRes.exhausted idx) with
      | bugScan =>
        by_cases hcond : (decide (0 < idx) || sel.should_unpack_parent node.1) = true
        · rw [if_pos hcond] at hs
          rw [hs] at hscanspec
          exact hscanspec
        · rw [if_neg hcond] at hs
          exact ScanRes.noConfusion hs
      | yieldLeaf a cs2 j =>
        rw [hs] at h
        simp at h
      | descend ch cs2 j =>
        rw [hs] at h
        exact ih _ h
      | exhausted j =>
        rw [hs] at h
        cases hp : popNode ec true ((node, idx, rc)) rest with
        | mk opt stack2 =>
          cases opt with
          | some rt =>
            rw [hp] at h
            simp at h
          | none =>
            rw [hp] at h
            exact ih _ h

/-- Rejecting the predicate at a frame with scan index zero pops the
frame without descending: the subtree is reattached (or becomes the root)
entirely unchanged. -/
theorem drainNext_reject (f : Nat) (node : ParentNode α E)
    (rest : List (Frame α E)) (tree : RTreeI α E) (osize : Nat)
    (hrej : sel.should_unpack_parent node.1 = false) (hne : node.2 ≠ []) :
    drainNext sel ec (f + 1) ⟨(node, 0, 0) :: rest, tree, osize⟩ =
      (match rest with
       | [] => .ok (none, ⟨[], ⟨node, osize⟩, osize⟩)
       | (pn, pidx, prc) :: rest2 =>
           drainNext sel ec f ⟨((pn.1,
             listSwap (pn.2 ++ [RTreeNode.Parent node.1 node.2]) pidx
               ((pn.2 ++ [RTreeNode.Parent node.1 node.2]).length - 1)),
             pidx + 1, prc) :: rest2, tree, osize⟩) := by
  rw [drainNext]
  simp only
  rw [if_neg (by
    rw [hrej]
    simp)]
  have hpop : popNode ec true ((node, 0, 0)) rest =
      (match rest with
       | [] => (some (node, 0), [])
       | (pn, pidx, prc) :: rest2 =>
         (none, ((pn.1,
           listSwap (pn.2 ++ [RTreeNode.Parent node.1 node.2]) pidx
             ((pn.2 ++ [RTreeNode.Parent node.1 node.2]).length - 1)),
           pidx + 1, prc + 0) :: rest2)) := by
    simp only [popNode]
    cases rest with
    | nil => simp
    | cons p rest2 =>
      obtain ⟨pn, pidx, prc⟩ := p
      dsimp only
      rw [if_neg (by
        rw [List.isEmpty_iff]
        exact hne)]
      simp
  rw [hpop]
  cases rest with
  | nil => simp
  | cons p rest2 =>
    obtain ⟨pn, pidx, prc⟩ := p
    simp

end DrainNoBug

section ClaimHelpers

theorem isBug_false_of_ne {β : Type} {r : Res β} (h : r ≠ .bug) :
    isBug r = false := by
  cases r with
  | ok b => rfl
  | fuel => rfl
  | bug => exact absurd rfl h

end ClaimHelpers

section Claims

variable {α E : Type}

/-- C1: the specification says full-mode recursive removal (`remove_all`)
terminates on every tree and predicate, with the child-scanning loop
making progress on every iteration.  The code violates this: on
`loopTree` — a root with a matching leaf followed by a parent child that
is drained but not emptied — the loop checks the accumulated result
instead of the recursive call's result, never advances the scan index,
and the call never returns.  Formally, the fuelled embedding returns
fuel-exhaustion for every fuel bound. -/
theorem C1_remove_all_diverges (f : Nat) :
    removeAllOp selOnlyZero ecNat f loopTree = .fuel :=
  removeRec_loopTree_fuel f

/-- C2: pulling a prefix from a drain traversal and then dropping it
leaves the tree equal to the original minus exactly the yielded elements
(as a multiset), with the size decreased by exactly the number of yielded
elements, every interior node re-enveloped and every emptied node
pruned. -/
theorem C2_drain_prefix_exact (sel : SelectionFunction α E) (ec : EnvCalc α E)
    [DecidableEq E]
    (hcm : ∀ a b, ec.merge a b = ec.merge b a)
    (has : ∀ a b c, ec.merge (ec.merge a b) c = ec.merge a (ec.merge b c))
    (t0 : RTreeI α E)
    (henv : envOKP ec t0.root = true) (hne : neKids t0.root.2 = true)
    (hsz : t0.size = (elemsList t0.root.2).length)
    (fuel k : Nat) (ys : List α) (st2 : DrainState α E)
    (hrun : drainTake sel ec fuel k (drainNew ec t0) = .ok (ys, st2)) :
    melems (drainDrop ec st2).root.2 + ↑ys = melems t0.root.2 ∧
    (drainDrop ec st2).size + ys.length = t0.size ∧
    envOKP ec (drainDrop ec st2).root = true ∧
    neKids (drainDrop ec st2).root.2 = true := by
  have hinv := drainNew_DInv ec t0 henv hne hsz
  have hps := drainTake_spec sel ec hcm has k fuel (melems t0.root.2) t0.size 0
    (drainNew ec t0) ys st2 hinv hrun
  have hfin := drainDrop_spec ec hcm has (melems t0.root.2) t0.size
    (0 + ↑ys) st2 hps
  obtain ⟨fe, fs, fv, fn⟩ := hfin
  rw [zero_add] at fe fs
  refine ⟨fe, ?_, fv, fn⟩
  rw [Multiset.coe_card] at fs
  exact fs

/-- C2 witness: a concrete two-element tree drained by one element and
then dropped. -/
theorem C2_drain_prefix_exact_witness :
    envOKP ecNat (⟨(5, [RTreeNode.Leaf 3, RTreeNode.Leaf 5]), 2⟩ :
      RTreeI Nat Nat).root = true ∧
    drainTake selEvery ecNat 100 1
      (drainNew ecNat ⟨(5, [RTreeNode.Leaf 3, RTreeNode.Leaf 5]), 2⟩) =
      .ok ([3], ⟨[((5, [RTreeNode.Leaf 5]), 0, 1)], ⟨(0, []), 0⟩, 2⟩) ∧
    (drainDrop ecNat (⟨[((5, [RTreeNode.Leaf 5]), 0, 1)],
      ⟨(0, []), 0⟩, 2⟩ : DrainState Nat Nat)).size + (1 : Nat) = 2 := by
  refine ⟨rfl, rfl, ?_⟩
  have henv : envOKP ecNat (⟨(5, [RTreeNode.Leaf 3, RTreeNode.Leaf 5]), 2⟩ :
      RTreeI Nat Nat).root = true := rfl
  have hne2 : neKids (⟨(5, [RTreeNode.Leaf 3, RTreeNode.Leaf 5]), 2⟩ :
      RTreeI Nat Nat).root.2 = true := rfl
  have hsz : (⟨(5, [RTreeNode.Leaf 3, RTreeNode.Leaf 5]), 2⟩ :
      RTreeI Nat Nat).size =
      (elemsList (⟨(5, [RTreeNode.Leaf 3, RTreeNode.Leaf 5]), 2⟩ :
        RTreeI Nat Nat).root.2).length := rfl
  have hrun : drainTake selEvery ecNat 100 1
      (drainNew ecNat ⟨(5, [RTreeNode.Leaf 3, RTreeNode.Leaf 5]), 2⟩) =
      .ok ([3], ⟨[((5, [RTreeNode.Leaf 5]), 0, 1)], ⟨(0, []), 0⟩, 2⟩) := rfl
  have h := C2_drain_prefix_exact selEvery ecNat Nat.max_comm Nat.max_assoc
    ⟨(5, [RTreeNode.Leaf 3, RTreeNode.Leaf 5]), 2⟩ henv hne2 hsz 100 1 [3]
    ⟨[((5, [RTreeNode.Leaf 5]), 0, 1)], ⟨(0, []), 0⟩, 2⟩ hrun
  simpa using h.2.1

/-- C3: after any completed `remove`/`remove_all` run and after any
completed (or early-terminated) drain, every interior node has at least
one child (except an empty root) and every interior node's cached
envelope is exactly the union of its current children's envelopes. -/
theorem C3_invariants_after_ops (sel : SelectionFunction α E)
    (ec : EnvCalc α E) [DecidableEq E]
    (hcm : ∀ a b, ec.merge a b = ec.merge b a)
    (has : ∀ a b c, ec.merge (ec.merge a b) c = ec.merge a (ec.merge b c)) :
    (∀ (first : Bool) (f : Nat) (p : ParentNode α E) r p2,
      removeRec sel ec first f p = .ok (r, p2) →
      envOKP ec p = true → neKids p.2 = true →
      envOKP ec p2 = true ∧ neKids p2.2 = true) ∧
    (∀ (t0 : RTreeI α E) (fuel k : Nat) (ys : List α) (st2 : DrainState α E),
      envOKP ec t0.root = true → neKids t0.root.2 = true →
      t0.size = (elemsList t0.root.2).length →
      drainTake sel ec fuel k (drainNew ec t0) = .ok (ys, st2) →
      envOKP ec (drainDrop ec st2).root = true ∧
      neKids (drainDrop ec st2).root.2 = true) := by
  constructor
  · intro first f p r p2 h henv hnek
    exact (removeRec_wf sel ec f).1 first p r p2 h henv hnek
  · intro t0 fuel k ys st2 henv hnek hsz hrun
    have hinv := drainNew_DInv ec t0 henv hnek hsz
    have hps := drainTake_spec sel ec hcm has k fuel (melems t0.root.2)
      t0.size 0 (drainNew ec t0) ys st2 hinv hrun
    have hfin := drainDrop_spec ec hcm has (melems t0.root.2) t0.size
      (0 + ↑ys) st2 hps
    exact ⟨hfin.fenv, hfin.fne⟩

/-- C3 witness: a single-element removal and a one-element drain on small
well-formed trees. -/
theorem C3_invariants_after_ops_witness :
    removeRec selOnlyZero ecNat false 100
      ((5 : Nat), [RTreeNode.Leaf 0, RTreeNode.Leaf 5]) =
      .ok ([0], (5, [RTreeNode.Leaf 5])) ∧
    (envOKP ecNat ((5 : Nat), [RTreeNode.Leaf 5]) = true ∧
      neKids (([RTreeNode.Leaf 5]) : List (RTreeNode Nat Nat)) = true) ∧
    (envOKP ecNat (drainDrop ecNat (⟨[((5, [RTreeNode.Leaf 5]), 0, 1)],
        ⟨(0, []), 0⟩, 2⟩ : DrainState Nat Nat)).root = true ∧
      neKids (drainDrop ecNat (⟨[((5, [RTreeNode.Leaf 5]), 0, 1)],
        ⟨(0, []), 0⟩, 2⟩ : DrainState Nat Nat)).root.2 = true) := by
  refine ⟨rfl, ?_, ?_⟩
  · have hc := C3_invariants_after_ops selOnlyZero ecNat Nat.max_comm
      Nat.max_assoc
    have hrun : removeRec selOnlyZero ecNat false 100
        ((5 : Nat), [RTreeNode.Leaf 0, RTreeNode.Leaf 5]) =
        .ok ([0], (5, [RTreeNode.Leaf 5])) := rfl
    have henv : envOKP ecNat ((5 : Nat),
        [RTreeNode.Leaf 0, RTreeNode.Leaf 5]) = true := rfl
    have hnek : neKids (([RTreeNode.Leaf 0, RTreeNode.Leaf 5]) :
        List (RTreeNode Nat Nat)) = true := rfl
    exact hc.1 false 100 ((5 : Nat), [RTreeNode.Leaf 0, RTreeNode.Leaf 5])
      [0] (5, [RTreeNode.Leaf 5]) hrun henv hnek
  · have hc := C3_invariants_after_ops selEvery ecNat Nat.max_comm
      Nat.max_assoc
    have henv : envOKP ecNat (⟨(5, [RTreeNode.Leaf 3, RTreeNode.Leaf 5]), 2⟩ :
        RTreeI Nat Nat).root = true := rfl
    have hnek : neKids (⟨(5, [RTreeNode.Leaf 3, RTreeNode.Leaf 5]), 2⟩ :
        RTreeI Nat Nat).root.2 = true := rfl
    have hsz : (⟨(5, [RTreeNode.Leaf 3, RTreeNode.Leaf 5]), 2⟩ :
        RTreeI Nat Nat).size =
        (elemsList (⟨(5, [RTreeNode.Leaf 3, RTreeNode.Leaf 5]), 2⟩ :
          RTreeI Nat Nat).root.2).length := rfl
    have hrun : drainTake selEvery ecNat 100 1
        (drainNew ecNat ⟨(5, [RTreeNode.Leaf 3, RTreeNode.Leaf 5]), 2⟩) =
        .ok ([3], ⟨[((5, [RTreeNode.Leaf 5]), 0, 1)], ⟨(0, []), 0⟩, 2⟩) := rfl
    exact hc.2 ⟨(5, [RTreeNode.Leaf 3, RTreeNode.Leaf 5]), 2⟩ 100 1 [3]
      ⟨[((5, [RTreeNode.Leaf 5]), 0, 1)], ⟨(0, []), 0⟩, 2⟩ henv hnek hsz hrun

/-- C4: `remove` returns exactly the specification-side first
predicate-accepted leaf of the depth-first, children-in-order traversal
restricted to accepted subtrees (`specFirstP`), detaching exactly that one
element; it returns `none` precisely when no accepted subtree holds a
matching leaf, leaving the tree unchanged. -/
theorem C4_remove_returns_first_match (sel : SelectionFunction α E)
    (ec : EnvCalc α E) (f : Nat) (p : ParentNode α E) (or2 : Option α)
    (p2 : ParentNode α E)
    (h : removeOp sel ec f p = .ok (or2, p2)) :
    or2 = specFirstP sel p ∧
    (match or2 with
     | some a => melems p2.2 + {a} = melems p.2
     | none => p2 = p) := by
  rw [removeOp] at h
  cases h0 : removeRec sel ec true f p with
  | fuel => rw [h0] at h; exact absurd h (by simp)
  | bug => rw [h0] at h; exact absurd h (by simp)
  | ok pr =>
    obtain ⟨r, p3⟩ := pr
    rw [h0] at h
    simp only [Res.ok.injEq, Prod.mk.injEq] at h
    obtain ⟨hor, hp2⟩ := h
    subst hor
    subst hp2
    have hf := (removeRec_first sel ec f).1 p r p3 h0
    cases hsf : specFirstP sel p with
    | some a =>
      rw [hsf] at hf
      obtain ⟨hr, hm⟩ := hf
      subst hr
      constructor
      · simp
      · simp only [List.getLast?_singleton]
        exact hm
    | none =>
      rw [hsf] at hf
      obtain ⟨hr, hm⟩ := hf
      subst hr
      constructor
      · simp
      · simp only [List.getLast?_nil]
        exact hm

/-- C4 witness: removing from a two-leaf tree where only the first leaf
matches. -/
theorem C4_remove_returns_first_match_witness :
    removeOp selOnlyZero ecNat 100
      ((5 : Nat), [RTreeNode.Leaf 0, RTreeNode.Leaf 5]) =
      .ok (some 0, (5, [RTreeNode.Leaf 5])) ∧
    some (0 : Nat) = specFirstP selOnlyZero ((5 : Nat),
      [RTreeNode.Leaf 0, RTreeNode.Leaf 5]) := by
  have hrun : removeOp selOnlyZero ecNat 100
      ((5 : Nat), [RTreeNode.Leaf 0, RTreeNode.Leaf 5]) =
      .ok (some 0, (5, [RTreeNode.Leaf 5])) := rfl
  have h := C4_remove_returns_first_match selOnlyZero ecNat 100
    ((5 : Nat), [RTreeNode.Leaf 0, RTreeNode.Leaf 5]) (some 0)
    ((5 : Nat), [RTreeNode.Leaf 5]) hrun
  exact ⟨hrun, h.1⟩

/-- C5: a completed `remove_all` exhausts every reachable match, so a
second completed `remove_all` with the same predicate returns an empty
result (and leaves the tree unchanged). -/
theorem C5_remove_all_idempotent (sel : SelectionFunction α E)
    (ec : EnvCalc α E) (f1 f2 : Nat) (p : ParentNode α E)
    (r1 : List α) (p1 : ParentNode α E) (r2 : List α) (p2 : ParentNode α E)
    (h1 : removeAllOp sel ec f1 p = .ok (r1, p1))
    (h2 : removeAllOp sel ec f2 p1 = .ok (r2, p2)) :
    r2 = [] ∧ p2 = p1 := by
  have h1b : removeRec sel ec false f1 p = .ok (r1, p1) := h1
  have h2b : removeRec sel ec false f2 p1 = .ok (r2, p2) := h2
  have hclean := (removeRec_makes_clean sel ec f1).1 p r1 p1 h1b
  exact (removeRec_clean sel ec f2).1 false p1 r2 p2 hclean h2b

/-- C5 witness: draining a two-leaf tree of its single match and running
the removal again. -/
theorem C5_remove_all_idempotent_witness :
    removeAllOp selOnlyZero ecNat 100
      ((5 : Nat), [RTreeNode.Leaf 0, RTreeNode.Leaf 5]) =
      .ok ([0], (5, [RTreeNode.Leaf 5])) ∧
    removeAllOp selOnlyZero ecNat 100 ((5 : Nat), [RTreeNode.Leaf 5]) =
      .ok ([], (5, [RTreeNode.Leaf 5])) ∧
    (([] : List Nat) = [] ∧
      ((5 : Nat), ([RTreeNode.Leaf 5] : List (RTreeNode Nat Nat))) =
        ((5 : Nat), [RTreeNode.Leaf 5])) := by
  have hrun1 : removeAllOp selOnlyZero ecNat 100
      ((5 : Nat), [RTreeNode.Leaf 0, RTreeNode.Leaf 5]) =
      .ok ([0], (5, [RTreeNode.Leaf 5])) := rfl
  have hrun2 : removeAllOp selOnlyZero ecNat 100
      ((5 : Nat), [RTreeNode.Leaf 5]) =
      .ok ([], (5, [RTreeNode.Leaf 5])) := rfl
  refine ⟨hrun1, hrun2, ?_⟩
  exact C5_remove_all_idempotent selOnlyZero ecNat 100 100
    ((5 : Nat), [RTreeNode.Leaf 0, RTreeNode.Leaf 5]) [0]
    ((5 : Nat), [RTreeNode.Leaf 5]) [] ((5 : Nat), [RTreeNode.Leaf 5])
    hrun1 hrun2

/-- C6: on a tree containing no element accepted by the predicate,
`remove` returns the empty result and leaves the tree (structure,
envelopes and hence element count) exactly unchanged. -/
theorem C6_remove_absent_is_noop (sel : SelectionFunction α E)
    (ec : EnvCalc α E) (f : Nat) (p : ParentNode α E) (or2 : Option α)
    (p2 : ParentNode α E)
    (hnoacc : ∀ a ∈ elemsList p.2, sel.should_unpack_leaf a = false)
    (h : removeOp sel ec f p = .ok (or2, p2)) :
    or2 = none ∧ p2 = p := by
  have hclean : cleanP sel p := Or.inr (cleanL_of_noacc sel p.2 hnoacc)
  rw [removeOp] at h
  cases h0 : removeRec sel ec true f p with
  | fuel => rw [h0] at h; exact absurd h (by simp)
  | bug => rw [h0] at h; exact absurd h (by simp)
  | ok pr =>
    obtain ⟨r, p3⟩ := pr
    rw [h0] at h
    simp only [Res.ok.injEq, Prod.mk.injEq] at h
    obtain ⟨hor, hp2⟩ := h
    subst hor
    subst hp2
    have hcl := (removeRec_clean sel ec f).1 true p r p3 hclean h0
    obtain ⟨hr, hp3⟩ := hcl
    subst hr
    exact ⟨rfl, hp3⟩

/-- C6 witness: removal on a tree with no matching element. -/
theorem C6_remove_absent_is_noop_witness :
    removeOp selOnlyZero ecNat 100 ((5 : Nat), [RTreeNode.Leaf 5]) =
      .ok (none, (5, [RTreeNode.Leaf 5])) ∧
    ((none : Option Nat) = none ∧
      ((5 : Nat), ([RTreeNode.Leaf 5] : List (RTreeNode Nat Nat))) =
        ((5 : Nat), [RTreeNode.Leaf 5])) := by
  have hrun : removeOp selOnlyZero ecNat 100 ((5 : Nat), [RTreeNode.Leaf 5]) =
      .ok (none, (5, [RTreeNode.Leaf 5])) := rfl
  refine ⟨hrun, ?_⟩
  exact C6_remove_absent_is_noop selOnlyZero ecNat 100
    ((5 : Nat), [RTreeNode.Leaf 5]) none ((5 : Nat), [RTreeNode.Leaf 5])
    (by
      intro a ha
      have ha5 : a = 5 := by
        have hl : elemsList (([RTreeNode.Leaf 5]) :
            List (RTreeNode Nat Nat)) = [5] := rfl
        rw [hl] at ha
        simpa using ha
      rw [ha5]
      rfl) hrun

/-- C7: when the predicate rejects a node's envelope, recursive removal
(either mode) returns immediately without descending and removes nothing,
and the drain iterator — with that node freshly on top of the stack at
scan index 0 — pops the node without descending and reattaches its
subtree entirely unchanged (or installs it unchanged as the root). -/
theorem C7_rejected_subtree_untouched (sel : SelectionFunction α E)
    (ec : EnvCalc α E) :
    (∀ (first : Bool) (f : Nat) (p : ParentNode α E),
      sel.should_unpack_parent p.1 = false →
      removeRec sel ec first (f + 1) p = .ok ([], p)) ∧
    (∀ (f : Nat) (node : ParentNode α E) (rest : List (Frame α E))
        (tree : RTreeI α E) (osize : Nat),
      sel.should_unpack_parent node.1 = false → node.2 ≠ [] →
      drainNext sel ec (f + 1) ⟨(node, 0, 0) :: rest, tree, osize⟩ =
        (match rest with
         | [] => .ok (none, ⟨[], ⟨node, osize⟩, osize⟩)
         | (pn, pidx, prc) :: rest2 =>
             drainNext sel ec f ⟨((pn.1,
               listSwap (pn.2 ++ [RTreeNode.Parent node.1 node.2]) pidx
                 ((pn.2 ++ [RTreeNode.Parent node.1 node.2]).length - 1)),
               pidx + 1, prc) :: rest2, tree, osize⟩)) := by
  constructor
  · intro first f p hrej
    rw [removeRec]
    rw [if_neg (by rw [hrej]; exact Bool.false_ne_true)]
  · intro f node rest tree osize hrej hne
    exact drainNext_reject sel ec f node rest tree osize hrej hne

/-- C7 witness: a predicate that rejects every envelope, applied to a
one-leaf node both in recursive removal and as the root frame of a
drain. -/
theorem C7_rejected_subtree_untouched_witness :
    (removeRec (⟨fun _ => false, fun _ => true⟩ : SelectionFunction Nat Nat)
        ecNat true 4 ((5 : Nat), [RTreeNode.Leaf 5]) =
      .ok ([], ((5 : Nat), [RTreeNode.Leaf 5]))) ∧
    (drainNext (⟨fun _ => false, fun _ => true⟩ : SelectionFunction Nat Nat)
        ecNat 4 ⟨[(((5 : Nat), [RTreeNode.Leaf 5]), 0, 0)], ⟨(0, []), 0⟩, 1⟩ =
      .ok (none, ⟨[], ⟨((5 : Nat), [RTreeNode.Leaf 5]), 1⟩, 1⟩)) := by
  have hc := C7_rejected_subtree_untouched
    (⟨fun _ => false, fun _ => true⟩ : SelectionFunction Nat Nat) ecNat
  constructor
  · exact hc.1 true 3 ((5 : Nat), [RTreeNode.Leaf 5]) rfl
  · have h2 := hc.2 3 ((5 : Nat), [RTreeNode.Leaf 5]) [] ⟨(0, []), 0⟩ 1 rfl
      (by simp)
    exact h2

/-- C8: the `unreachable!()` arms in `remove_recursive` (re-matching a
removed child known to be a leaf) and in `DrainIterator::next`
(re-matching a swap-removed child known to be a parent or a leaf) are
never executed, on any input and any fuel. -/
theorem C8_unreachable_arms_dead (sel : SelectionFunction α E)
    (ec : EnvCalc α E) :
    (∀ (first : Bool) (f : Nat) (p : ParentNode α E),
      isBug (removeRec sel ec first f p) = false) ∧
    (∀ (first : Bool) (f : Nat) (cs : List (RTreeNode α E)) (i : Nat)
        (res : List α), isBug (removeLoop sel ec first f cs i res) = false) ∧
    (∀ (f : Nat) (st : DrainState α E),
      isBug (drainNext sel ec f st) = false) := by
  refine ⟨?_, ?_, ?_⟩
  · intro first f p
    exact isBug_false_of_ne ((removeRec_no_bug sel ec f).1 first p)
  · intro first f cs i res
    exact isBug_false_of_ne ((removeRec_no_bug sel ec f).2 first cs i res)
  · intro f st
    exact isBug_false_of_ne (drainNext_no_bug sel ec f st)

/-- C9: once the drain iterator has signalled exhaustion (its stack is
empty), every further `next` returns `none` without touching the state,
and `drop` is a no-op. -/
theorem C9_exhaustion_idempotent (sel : SelectionFunction α E)
    (ec : EnvCalc α E) (f : Nat) (st : DrainState α E)
    (h : st.node_stack = []) :
    drainNext sel ec (f + 1) st = .ok (none, st) ∧
      drainDrop ec st = st.rtree :=
  ⟨drainNext_empty sel ec f st h, drainDrop_empty ec st h⟩

/-- C9 witness: an exhausted iterator state over a one-leaf tree. -/
theorem C9_exhaustion_idempotent_witness :
    drainNext selEvery ecNat 4
        (⟨[], ⟨((5 : Nat), [RTreeNode.Leaf 5]), 1⟩, 1⟩ : DrainState Nat Nat) =
      .ok (none, ⟨[], ⟨((5 : Nat), [RTreeNode.Leaf 5]), 1⟩, 1⟩) ∧
    drainDrop ecNat
        (⟨[], ⟨((5 : Nat), [RTreeNode.Leaf 5]), 1⟩, 1⟩ : DrainState Nat Nat) =
      ⟨((5 : Nat), [RTreeNode.Leaf 5]), 1⟩ :=
  C9_exhaustion_idempotent selEvery ecNat 3
    (⟨[], ⟨((5 : Nat), [RTreeNode.Leaf 5]), 1⟩, 1⟩ : DrainState Nat Nat) rfl

/-- C10: with the index's count equal to the number of stored elements at
construction, the number of elements yielded by any drain prefix never
exceeds the remembered original size, so the `usize` subtractions
`original_size - total_removed` in `next` and in `Drop` never
underflow (stated additively: the written-back size plus the yield count
equals the original size exactly). -/
theorem C10_size_subtraction_no_underflow (sel : SelectionFunction α E)
    (ec : EnvCalc α E) [DecidableEq E]
    (hcm : ∀ a b, ec.merge a b = ec.merge b a)
    (has : ∀ a b c, ec.merge (ec.merge a b) c = ec.merge a (ec.merge b c))
    (t0 : RTreeI α E)
    (henv : envOKP ec t0.root = true) (hne : neKids t0.root.2 = true)
    (hsz : t0.size = (elemsList t0.root.2).length)
    (fuel k : Nat) (ys : List α) (st2 : DrainState α E)
    (hrun : drainTake sel ec fuel k (drainNew ec t0) = .ok (ys, st2)) :
    ys.length ≤ t0.size ∧
      (drainDrop ec st2).size + ys.length = t0.size := by
  have hinv := drainNew_DInv ec t0 henv hne hsz
  have hps := drainTake_spec sel ec hcm has k fuel (melems t0.root.2) t0.size 0
    (drainNew ec t0) ys st2 hinv hrun
  have hfin := drainDrop_spec ec hcm has (melems t0.root.2) t0.size
    (0 + ↑ys) st2 hps
  have hfs := hfin.fsize
  rw [zero_add, Multiset.coe_card] at hfs
  exact ⟨by omega, hfs⟩

/-- C10 witness: the one-element prefix drain of a two-element tree. -/
theorem C10_size_subtraction_no_underflow_witness :
    drainTake selEvery ecNat 100 1
      (drainNew ecNat ⟨(5, [RTreeNode.Leaf 3, RTreeNode.Leaf 5]), 2⟩) =
      .ok ([3], ⟨[((5, [RTreeNode.Leaf 5]), 0, 1)], ⟨(0, []), 0⟩, 2⟩) ∧
    ((1 : Nat) ≤ 2 ∧
      (drainDrop ecNat (⟨[((5, [RTreeNode.Leaf 5]), 0, 1)],
        ⟨(0, []), 0⟩, 2⟩ : DrainState Nat Nat)).size + (1 : Nat) = 2) := by
  have henv : envOKP ecNat (⟨(5, [RTreeNode.Leaf 3, RTreeNode.Leaf 5]), 2⟩ :
      RTreeI Nat Nat).root = true := rfl
  have hne2 : neKids (⟨(5, [RTreeNode.Leaf 3, RTreeNode.Leaf 5]), 2⟩ :
      RTreeI Nat Nat).root.2 = true := rfl
  have hsz : (⟨(5, [RTreeNode.Leaf 3, RTreeNode.Leaf 5]), 2⟩ :
      RTreeI Nat Nat).size =
      (elemsList (⟨(5, [RTreeNode.Leaf 3, RTreeNode.Leaf 5]), 2⟩ :
        RTreeI Nat Nat).root.2).length := rfl
  have hrun : drainTake selEvery ecNat 100 1
      (drainNew ecNat ⟨(5, [RTreeNode.Leaf 3, RTreeNode.Leaf 5]), 2⟩) =
      .ok ([3], ⟨[((5, [RTreeNode.Leaf 5]), 0, 1)], ⟨(0, []), 0⟩, 2⟩) := rfl
  refine ⟨hrun, ?_⟩
  have h := C10_size_subtraction_no_underflow selEvery ecNat Nat.max_comm
    Nat.max_assoc ⟨(5, [RTreeNode.Leaf 3, RTreeNode.Leaf 5]), 2⟩ henv hne2 hsz
    100 1 [3] ⟨[((5, [RTreeNode.Leaf 5]), 0, 1)], ⟨(0, []), 0⟩, 2⟩ hrun
  simpa using h

end Claims













end RStar
